import Mathlib

/-!
# Verification of the Conjecture test-record core

A shallow embedding of `hypothesis/internal/conjecture/data.py`: the
`ConjectureData` recording state machine together with its `Example` tree and
`Block` list, plus theorems checking the specification's claims about it.

Python state is modelled as an explicit record (`ConjectureData`); bytes are
`Nat` values (with `< 256` supplied as a hypothesis at the byte-source
boundary, where Python's `bytes` type enforces it); the byte source
(`self._draw_bytes`, a callable stored on the object) is passed as an explicit
function parameter; exceptions (`Frozen`, `StopTest`, `InvalidArgument`,
`OverflowError` from `int_to_bytes`, `AssertionError`/`IndexError`) become an
`Except DrawError` result paired with the post-state, since Python mutations
performed before a raise survive it.
-/

namespace Conjecture

/-- `Status` enum from the source: `OVERRUN = 0`, `INVALID = 1`, `VALID = 2`,
`INTERESTING = 3`. -/
inductive Status where
  | overrun
  | invalid
  | valid
  | interesting
deriving DecidableEq, Repr

/-- One atomic fixed-width draw.  Field `stop` is the source's `end`
(a Lean keyword).  `trivial` is the derived property `forced or all_zero`. -/
structure Block where
  start : Nat
  stop : Nat
  bits : Nat
  index : Nat
  forced : Bool
  all_zero : Bool
deriving DecidableEq, Repr

instance : Inhabited Block := ⟨⟨0, 0, 0, 0, false, false⟩⟩

def Block.trivial (b : Block) : Bool := b.forced || b.all_zero

/-- One nested draw region.  Field `stop` is the source's `end` (`None` until
the region closes); `discarded` starts as `None`.  The source stores child
`Example` objects in `children`; each such object carries its immutable
`index` into the global example list, and only ever aliases the entry of that
list, so we record children by that index. -/
structure Example where
  depth : Nat
  label : Nat
  index : Nat
  start : Nat
  stop : Option Nat
  trivial : Bool
  discarded : Option Bool
  children : List Nat
deriving DecidableEq, Repr

instance : Inhabited Example := ⟨⟨0, 0, 0, 0, none, true, none, []⟩⟩

/-- The exceptions that can escape the modelled operations. -/
inductive DrawError where
  /-- `Frozen("Cannot call %s on frozen ConjectureData")` with the name of the
  attempted operation. -/
  | frozenError (opName : String)
  /-- `StopTest(self.testcounter)`: the abort signal, tagged with the raising
  record's identity. -/
  | stopTest (counter : Nat)
  /-- `InvalidArgument`. -/
  | invalidArgument
  /-- `OverflowError` from `int_to_bytes` when the value does not fit. -/
  | overflowError
  /-- A failing `assert`, or an `IndexError` from indexing/popping a list. -/
  | assertionError
deriving DecidableEq, Repr

/-- The mutable state of a `ConjectureData` object.  Purely diagnostic fields
(`output`, `events`, `draw_times`, `start_time`, `finish_time`) are omitted:
no operation's control flow reads them.  `block_starts` is the width-indexed
multimap `n_bytes -> list of block start offsets`. -/
structure ConjectureData where
  max_length : Nat
  is_find : Bool
  overdraw : Nat
  block_starts : Nat → List Nat
  blocks : List Block
  buffer : List Nat
  status : Status
  frozen : Bool
  testcounter : Nat
  interesting_origin : Option Nat
  max_depth : Nat
  examples : List Example
  example_stack : List Nat
  has_discards : Bool

/-- Modelled from the spec: labels are opaque origin tags
(`calc_label_from_name` lives in `conjecture/utils.py`, outside the provided
sources); only their identity matters. -/
def TOP_LABEL : Nat := 0

/-- Modelled from the spec: the label of the example opened around every
primitive `draw_bits` call. -/
def DRAW_BYTES_LABEL : Nat := 1

def MAX_DEPTH : Nat := 100

/-- `bits_to_bytes` from the source: `n // 8`, plus one if `n % 8 != 0`. -/
def bits_to_bytes (n : Nat) : Nat :=
  n / 8 + (if n % 8 ≠ 0 then 1 else 0)

/-- Modelled from the spec: `int_from_bytes` (from `internal/compat.py`,
outside the provided sources) decodes a big-endian byte string. -/
def int_from_bytes (bs : List Nat) : Nat :=
  bs.foldl (fun a b => a * 256 + b) 0

/-- Modelled from the spec: `int_to_bytes` (from `internal/compat.py`) is the
big-endian encoding of `v`, left-padded to `k` bytes; byte `i` (most
significant first) of the `k`-byte encoding is `v / 256 ^ (k - 1 - i) % 256`. -/
def int_to_bytes (v : Nat) : Nat → List Nat
  | 0 => []
  | k + 1 => (v / 256 ^ k) % 256 :: int_to_bytes v k

/-- Fuelled binary-length recursion (the fuel only needs to dominate the
value, which `bit_length` arranges; structural recursion keeps it
kernel-computable). -/
def bl_go : Nat → Nat → Nat
  | _, 0 => 0
  | 0, _ + 1 => 0
  | fuel + 1, v + 1 => bl_go fuel ((v + 1) / 2) + 1

/-- Modelled from the spec: Python's `int.bit_length` for non-negative
integers: the number of bits needed to represent `v`, characterised by
`bit_length v ≤ m ↔ v < 2 ^ m`. -/
def bit_length (v : Nat) : Nat := bl_go v v

/-- The byte source `self._draw_bytes`: a callable receiving the record and a
byte count. -/
def ByteSource : Type := ConjectureData → Nat → List Nat

/-- `self.index`: the current buffer length. -/
def ConjectureData.index (s : ConjectureData) : Nat := s.buffer.length

/-- Convenience accessor for the example at index `i`. -/
def exAt (s : ConjectureData) (i : Nat) : Example := s.examples.getD i default

/-- `start_example`: create a fresh open example at the current buffer
offset, register it as the last child of the open example on top of the
stack (if any), and push it.  `new_depth = self.depth + 1` where
`self.depth = len(self.example_stack) - 1`, hence `new_depth` equals the
stack length before the push. -/
def start_example (s : ConjectureData) (label : Nat) :
    ConjectureData × Except DrawError Unit :=
  if s.frozen then (s, .error (.frozenError ("start_example")))
  else
    let i := s.examples.length
    let new_depth := s.example_stack.length
    let ex : Example :=
      { depth := new_depth, label := label, index := i, start := s.index,
        stop := none, trivial := true, discarded := none, children := [] }
    let examples1 := s.examples ++ [ex]
    let examples2 :=
      match s.example_stack with
      | [] => examples1
      | p :: _ =>
          let pe := examples1.getD p default
          examples1.set p { pe with children := pe.children ++ [i] }
    ({ s with examples := examples2,
              example_stack := i :: s.example_stack,
              max_depth := max s.max_depth new_depth }, .ok ())

/-- `stop_example(discard)`: a silent no-op on a frozen record; otherwise pop
the stack top `k`, set its `end` to the current buffer length, propagate
non-triviality to the new stack top, force `discard = False` on an empty
region, record `discarded`, and accumulate `has_discards`.  Popping an empty
stack is Python's `IndexError`. -/
def stop_example (s : ConjectureData) (discard : Bool) :
    ConjectureData × Except DrawError Unit :=
  if s.frozen then (s, .ok ())
  else
    match s.example_stack with
    | [] => (s, .error .assertionError)
    | k :: rest =>
      if k < s.examples.length then
        let ex := s.examples.getD k default
        let examples1 := s.examples.set k { ex with stop := some s.index }
        let examples2 :=
          match rest with
          | [] => examples1
          | p :: _ =>
            if ex.trivial then examples1
            else
              let pe := examples1.getD p default
              examples1.set p { pe with trivial := false }
        let discard1 := if s.index = ex.start then false else discard
        let ke := examples2.getD k default
        let examples3 := examples2.set k { ke with discarded := some discard1 }
        ({ s with example_stack := rest, examples := examples3,
                  has_discards := s.has_discards || discard1 }, .ok ())
      else ({ s with example_stack := rest }, .error .assertionError)

/-- The `while self.example_stack: self.stop_example()` loop inside `freeze`,
fuelled by the stack length (each unfrozen `stop_example` pops exactly one
entry). -/
def close_stack : Nat → ConjectureData → ConjectureData
  | 0, s => s
  | fuel + 1, s =>
    match s.example_stack with
    | [] => s
    | _ :: _ => close_stack fuel (stop_example s false).1

/-- `freeze`: idempotent; closes any still-open examples, then marks the
record frozen.  (The loop over `self.examples` that builds a local
`discards` list has no effect on the record and is omitted; snapshotting
`buffer`/`events` into immutable types and deleting `_draw_bytes` have no
counterpart in the model.) -/
def freeze (s : ConjectureData) : ConjectureData :=
  if s.frozen then s
  else { close_stack s.example_stack.length s with frozen := true }

/-- To mask off high bits, the source does `buf[0] &= (1 << (n % 8)) - 1` on
the mutable byte buffer. -/
def mask_first (m : Nat) : List Nat → List Nat
  | [] => []
  | b :: bs => (b &&& ((1 <<< m) - 1)) :: bs

/-- The masking step of `draw_bits`: applied only when `n` is not a multiple
of 8. -/
def maskBuf (n : Nat) (buf : List Nat) : List Nat :=
  if n % 8 ≠ 0 then mask_first (n % 8) buf else buf

/-- The recording tail of `draw_bits`, after the capacity check and after the
raw bytes `buf0` (of length `n_bytes`) have been obtained: mask, decode,
open the primitive example, set its `trivial` from the block, index the block
start, append the block, extend the buffer, close the example, and check the
final `assert bit_length(result) <= n`. -/
def draw_bits_record (s : ConjectureData) (n n_bytes : Nat) (buf0 : List Nat)
    (isForced : Bool) : ConjectureData × Except DrawError Nat :=
  let buf := maskBuf n buf0
  let result := int_from_bytes buf
  let exIdx := s.examples.length
  let s1 := (start_example s DRAW_BYTES_LABEL).1
  let initial := s1.index
  let block : Block :=
    { start := initial, stop := initial + n_bytes, bits := n,
      index := s1.blocks.length, forced := isForced,
      all_zero := decide (result = 0) }
  let e := s1.examples.getD exIdx default
  let s2 :=
    { s1 with
      examples := s1.examples.set exIdx { e with trivial := block.trivial },
      block_starts := fun m =>
        if m = n_bytes then s1.block_starts m ++ [block.start]
        else s1.block_starts m,
      blocks := s1.blocks ++ [block],
      buffer := s1.buffer ++ buf }
  let s3 := (stop_example s2 false).1
  if bit_length result ≤ n then (s3, .ok result) else (s3, .error .assertionError)

/-- `draw_bits(n, forced)`.  The frozen check comes first; then
`n_bytes = bits_to_bytes n` and the capacity check (which on failure sets
`overdraw` and `status = OVERRUN`, freezes, and raises `StopTest`); then the
raw bytes are obtained (the big-endian encoding of `forced`, which overflows
if `forced` does not fit in `n_bytes` bytes, or a pull from the byte source,
which must return exactly `n_bytes` bytes by the `assert len(buf) == n_bytes`).
The source's `if n == 0: result = 0` assignment is dead (`result` is
unconditionally recomputed from the decoded bytes) and has no counterpart
here. -/
def draw_bits (src : ByteSource) (s : ConjectureData) (n : Nat)
    (forced : Option Nat) : ConjectureData × Except DrawError Nat :=
  if s.frozen then (s, .error (.frozenError ("draw_bits")))
  else
    let n_bytes := bits_to_bytes n
    if s.index + n_bytes > s.max_length then
      let s1 := freeze { s with overdraw := s.index + n_bytes - s.max_length,
                                status := .overrun }
      (s1, .error (.stopTest s.testcounter))
    else
      match forced with
      | some v =>
        if v < 256 ^ n_bytes then draw_bits_record s n n_bytes (int_to_bytes v n_bytes) true
        else (s, .error .overflowError)
      | none =>
        let buf0 := src s n_bytes
        if buf0.length = n_bytes then draw_bits_record s n n_bytes buf0 false
        else (s, .error .assertionError)

/-- `write(string)`: frozen check first, no-op for an empty byte string,
otherwise a forced `draw_bits` of `8 * len(string)` bits; returns the last
`len(string)` bytes of the buffer. -/
def write (src : ByteSource) (s : ConjectureData) (string : List Nat) :
    ConjectureData × Except DrawError (Option (List Nat)) :=
  if s.frozen then (s, .error (.frozenError ("write")))
  else if string = [] then (s, .ok none)
  else
    match draw_bits src s (string.length * 8) (some (int_from_bytes string)) with
    | (s', .ok _) => (s', .ok (some (s'.buffer.drop (s'.buffer.length - string.length))))
    | (s', .error e) => (s', .error e)

/-- `conclude_test(status, interesting_origin)`: the guard assert, the frozen
check, then set the origin and status, freeze, and raise `StopTest`. -/
def conclude_test (s : ConjectureData) (status : Status)
    (origin : Option Nat) : ConjectureData × Except DrawError Unit :=
  if origin.isSome ∧ status ≠ .interesting then (s, .error .assertionError)
  else if s.frozen then (s, .error (.frozenError ("conclude_test")))
  else
    let s1 := freeze { s with interesting_origin := origin, status := status }
    (s1, .error (.stopTest s.testcounter))

def mark_invalid (s : ConjectureData) : ConjectureData × Except DrawError Unit :=
  conclude_test s .invalid none

def mark_interesting (s : ConjectureData) (origin : Option Nat) :
    ConjectureData × Except DrawError Unit :=
  conclude_test s .interesting origin

/-- `self.depth`: `len(self.example_stack) - 1` (an integer: `-1` on an empty
stack). -/
def ConjectureData.depth (s : ConjectureData) : Int :=
  (s.example_stack.length : Int) - 1

/-- An externally supplied strategy, at its interface: `supports_find`,
`is_empty`, an intrinsic `label`, whether `validate()` succeeds, and the
arbitrary drawing code `do_draw` (which interacts with the record only
through its public operations). -/
structure Strategy where
  supports_find : Bool
  is_empty : Bool
  label : Nat
  validate_ok : Bool
  do_draw : ConjectureData → ConjectureData × Except DrawError Nat

/-- `__draw`: open an example labelled by the strategy, delegate to
`do_draw` (at top level, after `strategy.validate()`), and close the example
on every exit path (`finally`).  Wall-clock timing and fault escalation are
diagnostic only (escalation re-raises the fault unchanged) and are omitted. -/
def draw_inner (s : ConjectureData) (strat : Strategy) (label : Nat) :
    ConjectureData × Except DrawError Nat :=
  let at_top_level := s.depth = 0
  match start_example s label with
  | (s1, .error e) => ((stop_example s1 false).1, .error e)
  | (s1, .ok _) =>
    if at_top_level ∧ ¬ strat.validate_ok then
      ((stop_example s1 false).1, .error .invalidArgument)
    else
      let r := strat.do_draw s1
      ((stop_example r.1 false).1, r.2)

/-- `draw(strategy, label)`: the find-mode guard, the `is_empty` and depth
rejections (via `mark_invalid`, which always raises), then `__draw`. -/
def draw (s : ConjectureData) (strat : Strategy) (labelArg : Option Nat) :
    ConjectureData × Except DrawError Nat :=
  if s.is_find ∧ ¬ strat.supports_find then (s, .error .invalidArgument)
  else if strat.is_empty then
    let r := mark_invalid s
    (r.1, .error (match r.2 with | .error e => e | .ok _ => .assertionError))
  else if s.depth ≥ (MAX_DEPTH : Int) then
    let r := mark_invalid s
    (r.1, .error (match r.2 with | .error e => e | .ok _ => .assertionError))
  else draw_inner s strat (labelArg.getD strat.label)

/-- `__init__(max_length, draw_bytes)`: fresh state, then
`start_example(TOP_LABEL)` opening the root example.  The process-wide
`global_test_counter` is passed in as `testcounter`. -/
def initial_state (max_length testcounter : Nat) : ConjectureData :=
  (start_example
    { max_length := max_length, is_find := false, overdraw := 0,
      block_starts := fun _ => [], blocks := [], buffer := [],
      status := .valid, frozen := false, testcounter := testcounter,
      interesting_origin := none, max_depth := 0, examples := [],
      example_stack := [], has_discards := false } TOP_LABEL).1

/-- The byte source installed by `ConjectureData.for_buffer`: slices
`buffer[data.index : data.index + n]`. -/
def buffer_src (buffer : List Nat) : ByteSource :=
  fun s n => (buffer.drop s.index).take n

/-- `ConjectureData.for_buffer(buffer)`: replay over a fixed buffer, with
`max_length = len(buffer)`; its byte source is `buffer_src buffer`. -/
def for_buffer (buffer : List Nat) (testcounter : Nat) : ConjectureData :=
  initial_state buffer.length testcounter

/-- `blocks_with_values`: the (lazily generated, here fully materialised)
sequence of `(block, decoded integer)` pairs; the generator's
`assert bit_length(n) <= b.bits` is proved as a theorem rather than
embedded. -/
def blocks_with_values (s : ConjectureData) : List (Block × Nat) :=
  s.blocks.map (fun b => (b, int_from_bytes ((s.buffer.take b.stop).drop b.start)))

/-- `all_block_bounds`: the list of `(start, end)` bounds. -/
def all_block_bounds (s : ConjectureData) : List (Nat × Nat) :=
  s.blocks.map (fun b => (b.start, b.stop))

/-- The states of one record reachable by driving it, from construction,
through its public mutating operations with a fixed byte source.  Strategies
(`draw`) are external code that touches the record only through these same
operations, so they add no reachable states. -/
inductive Reachable (src : ByteSource) : ConjectureData → Prop where
  | init (maxLen tc : Nat) : Reachable src (initial_state maxLen tc)
  | draw_bits_step {s} (n : Nat) (forced : Option Nat) :
      Reachable src s → Reachable src (draw_bits src s n forced).1
  | start_example_step {s} (label : Nat) :
      Reachable src s → Reachable src (start_example s label).1
  | stop_example_step {s} (d : Bool) :
      Reachable src s → Reachable src (stop_example s d).1
  | write_step {s} (bs : List Nat) :
      Reachable src s → Reachable src (write src s bs).1
  | freeze_step {s} : Reachable src s → Reachable src (freeze s)
  | conclude_step {s} (st : Status) (origin : Option Nat) :
      Reachable src s → Reachable src (conclude_test s st origin).1

/-! ## Arithmetic facts about the byte codecs and the bit mask -/

theorem bits_to_bytes_of_mod_eq_zero {n : Nat} (h : n % 8 = 0) :
    bits_to_bytes n = n / 8 := by
  simp [bits_to_bytes, h]

theorem bits_to_bytes_of_mod_ne_zero {n : Nat} (h : n % 8 ≠ 0) :
    bits_to_bytes n = n / 8 + 1 := by
  simp [bits_to_bytes, h]

theorem le_eight_mul_bits_to_bytes {n : Nat} : n ≤ 8 * bits_to_bytes n := by
  by_cases h : n % 8 = 0 <;> simp [bits_to_bytes, h] <;> omega

theorem int_from_bytes_nil : int_from_bytes [] = 0 := rfl

theorem foldl_byte_eq (bs : List Nat) :
    ∀ a : Nat, bs.foldl (fun x b => x * 256 + b) a =
      a * 256 ^ bs.length + int_from_bytes bs := by
  induction bs with
  | nil => intro a; simp [int_from_bytes]
  | cons b bs ih =>
    intro a
    show bs.foldl _ (a * 256 + b) = _
    rw [ih (a * 256 + b)]
    have hb : int_from_bytes (b :: bs) = b * 256 ^ bs.length + int_from_bytes bs := by
      show bs.foldl _ (0 * 256 + b) = _
      rw [ih (0 * 256 + b)]; ring
    rw [hb]
    simp [List.length_cons, pow_succ]
    ring

theorem int_from_bytes_cons (b : Nat) (bs : List Nat) :
    int_from_bytes (b :: bs) = b * 256 ^ bs.length + int_from_bytes bs := by
  show bs.foldl _ (0 * 256 + b) = _
  rw [foldl_byte_eq]; ring

theorem length_int_to_bytes (v : Nat) : ∀ k, (int_to_bytes v k).length = k := by
  intro k
  induction k with
  | zero => rfl
  | succ k ih => simp [int_to_bytes, ih]

theorem int_to_bytes_mem_lt (v : Nat) :
    ∀ k, ∀ x ∈ int_to_bytes v k, x < 256 := by
  intro k
  induction k with
  | zero => intro x hx; simp [int_to_bytes] at hx
  | succ k ih =>
    intro x hx
    simp only [int_to_bytes, List.mem_cons] at hx
    rcases hx with h | h
    · subst h; exact Nat.mod_lt _ (by norm_num)
    · exact ih x h

theorem int_from_to_bytes (v : Nat) :
    ∀ k, int_from_bytes (int_to_bytes v k) = v % 256 ^ k := by
  intro k
  induction k with
  | zero => simp [int_to_bytes, int_from_bytes, Nat.mod_one]
  | succ k ih =>
    rw [int_to_bytes, int_from_bytes_cons, length_int_to_bytes, ih, pow_succ,
      Nat.mod_mul]
    ring

theorem int_from_bytes_lt (bs : List Nat) (h : ∀ x ∈ bs, x < 256) :
    int_from_bytes bs < 256 ^ bs.length := by
  induction bs with
  | nil => simp [int_from_bytes]
  | cons b bs ih =>
    rw [int_from_bytes_cons]
    have hb : b < 256 := h b (List.mem_cons_self _ _)
    have htl : int_from_bytes bs < 256 ^ bs.length :=
      ih (fun x hx => h x (List.mem_cons_of_mem _ hx))
    calc b * 256 ^ bs.length + int_from_bytes bs
        < b * 256 ^ bs.length + 256 ^ bs.length := by omega
      _ = (b + 1) * 256 ^ bs.length := by ring
      _ ≤ 256 * 256 ^ bs.length := Nat.mul_le_mul_right _ (by omega)
      _ = 256 ^ (b :: bs).length := by simp [pow_succ]; ring

theorem pow256 (k : Nat) : 256 ^ k = 2 ^ (8 * k) := by
  rw [pow_mul]; norm_num

theorem bl_go_le_iff :
    ∀ fuel v m : Nat, v ≤ fuel → (bl_go fuel v ≤ m ↔ v < 2 ^ m) := by
  intro fuel
  induction fuel with
  | zero =>
    intro v m hv
    have : v = 0 := Nat.le_zero.1 hv
    subst this
    simp [bl_go, Nat.pos_pow_of_pos m (by norm_num : 0 < 2)]
  | succ fuel ih =>
    intro v m hv
    match v with
    | 0 => simp [bl_go, Nat.pos_pow_of_pos m (by norm_num : 0 < 2)]
    | w + 1 =>
      rw [bl_go]
      match m with
      | 0 =>
        constructor
        · intro h; omega
        · intro h; omega
      | m + 1 =>
        rw [Nat.add_le_add_iff_right]
        rw [ih ((w + 1) / 2) m (by omega)]
        rw [Nat.div_lt_iff_lt_mul (by norm_num : 0 < 2), pow_succ]

theorem bit_length_le_iff (v m : Nat) : bit_length v ≤ m ↔ v < 2 ^ m :=
  bl_go_le_iff v v m (Nat.le_refl v)

/-- A masked head byte is its residue mod `2 ^ m`. -/
theorem mask_head_eq (b m : Nat) : b &&& ((1 <<< m) - 1) = b % 2 ^ m := by
  rw [Nat.shiftLeft_eq, one_mul, Nat.and_pow_two_sub_one_eq_mod]

/-- Value of the masked big-endian encoding of `v`: masking never changes
anything but the top byte, and the decoded result is `v % 2 ^ n`. -/
theorem mask_value_forced (n v : Nat) :
    int_from_bytes (maskBuf n (int_to_bytes v (bits_to_bytes n))) = v % 2 ^ n := by
  by_cases h : n % 8 = 0
  · rw [maskBuf, if_neg (by simp [h]), int_from_to_bytes,
      bits_to_bytes_of_mod_eq_zero h, pow256]
    have hdiv : 8 * (n / 8) = n := by omega
    rw [hdiv]
  · rw [bits_to_bytes_of_mod_ne_zero h]
    rw [maskBuf, if_pos (by simp [h])]
    rw [int_to_bytes]
    rw [mask_first]
    rw [mask_head_eq]
    rw [int_from_bytes_cons, length_int_to_bytes, int_from_to_bytes]
    have hdvd : (2 : Nat) ^ (n % 8) ∣ 256 := by
      have : (256 : Nat) = 2 ^ 8 := by norm_num
      rw [this]
      exact pow_dvd_pow 2 (Nat.le_of_lt (Nat.mod_lt n (by norm_num)))
    rw [Nat.mod_mod_of_dvd _ hdvd]
    have hn : 2 ^ n = 256 ^ (n / 8) * 2 ^ (n % 8) := by
      rw [pow256, ← pow_add]
      congr 1
      omega
    rw [hn, Nat.mod_mul]
    ring

/-- Bound on the masked value of an arbitrary byte string of the right
length, provided every byte is a byte. -/
theorem mask_value_lt (n : Nat) (buf : List Nat)
    (hlen : buf.length = bits_to_bytes n) (hb : ∀ x ∈ buf, x < 256) :
    int_from_bytes (maskBuf n buf) < 2 ^ n := by
  by_cases h : n % 8 = 0
  · rw [maskBuf, if_neg (by simp [h])]
    have := int_from_bytes_lt buf hb
    rw [hlen, bits_to_bytes_of_mod_eq_zero h, pow256] at this
    have hdiv : 8 * (n / 8) = n := by omega
    rwa [hdiv] at this
  · rw [maskBuf, if_pos (by simp [h])]
    rw [bits_to_bytes_of_mod_ne_zero h] at hlen
    match buf, hlen with
    | b :: bs, hlen =>
      rw [mask_first, mask_head_eq, int_from_bytes_cons]
      have hbs : bs.length = n / 8 := by simpa using hlen
      have htl : int_from_bytes bs < 256 ^ bs.length :=
        int_from_bytes_lt bs (fun x hx => hb x (List.mem_cons_of_mem _ hx))
      have hhd : b % 2 ^ (n % 8) < 2 ^ (n % 8) :=
        Nat.mod_lt _ (Nat.pos_pow_of_pos _ (by norm_num))
      have hn : 2 ^ n = 2 ^ (n % 8) * 256 ^ (n / 8) := by
        rw [pow256, ← pow_add]
        congr 1
        omega
      rw [hn, hbs] at *
      calc b % 2 ^ (n % 8) * 256 ^ (n / 8) + int_from_bytes bs
          < b % 2 ^ (n % 8) * 256 ^ (n / 8) + 256 ^ (n / 8) := by
            rw [← hbs]; omega
        _ = (b % 2 ^ (n % 8) + 1) * 256 ^ (n / 8) := by ring
        _ ≤ 2 ^ (n % 8) * 256 ^ (n / 8) := Nat.mul_le_mul_right _ (by omega)

/-! ## List access helpers -/

theorem getD_set_self {α : Type} {l : List α} {i : Nat} (h : i < l.length)
    (a d : α) : (l.set i a).getD i d = a := by
  simp [List.getD_eq_getElem?_getD, List.getElem?_set_self h]

theorem getD_set_ne {α : Type} {l : List α} {i j : Nat} (h : i ≠ j)
    (a d : α) : (l.set i a).getD j d = l.getD j d := by
  simp [List.getD_eq_getElem?_getD, List.getElem?_set_ne h]

theorem getD_append_self {α : Type} (l : List α) (a d : α) :
    (l ++ [a]).getD l.length d = a := by
  rw [List.getD_append_right _ _ _ _ (Nat.le_refl _)]
  simp

theorem mask_length (n : Nat) (buf : List Nat) :
    (maskBuf n buf).length = buf.length := by
  rw [maskBuf]
  split
  · match buf with
    | [] => rfl
    | b :: bs => rfl
  · rfl

/-! ## Frame lemmas: which fields each operation can touch -/

theorem stop_example_frame (s : ConjectureData) (d : Bool) :
    (stop_example s d).1.buffer = s.buffer ∧
    (stop_example s d).1.blocks = s.blocks ∧
    (stop_example s d).1.block_starts = s.block_starts ∧
    (stop_example s d).1.status = s.status ∧
    (stop_example s d).1.overdraw = s.overdraw ∧
    (stop_example s d).1.testcounter = s.testcounter ∧
    (stop_example s d).1.max_length = s.max_length ∧
    (stop_example s d).1.frozen = s.frozen ∧
    (stop_example s d).1.interesting_origin = s.interesting_origin ∧
    (stop_example s d).1.max_depth = s.max_depth ∧
    (stop_example s d).1.is_find = s.is_find ∧
    (stop_example s d).1.examples.length = s.examples.length := by
  unfold stop_example
  split
  · simp
  · split
    · simp
    · split
      · split
        · simp
        · simp [apply_ite List.length]
      · simp

theorem close_stack_frame (fuel : Nat) (s : ConjectureData) :
    (close_stack fuel s).buffer = s.buffer ∧
    (close_stack fuel s).blocks = s.blocks ∧
    (close_stack fuel s).block_starts = s.block_starts ∧
    (close_stack fuel s).status = s.status ∧
    (close_stack fuel s).overdraw = s.overdraw ∧
    (close_stack fuel s).testcounter = s.testcounter ∧
    (close_stack fuel s).max_length = s.max_length ∧
    (close_stack fuel s).frozen = s.frozen ∧
    (close_stack fuel s).interesting_origin = s.interesting_origin ∧
    (close_stack fuel s).max_depth = s.max_depth ∧
    (close_stack fuel s).is_find = s.is_find ∧
    (close_stack fuel s).examples.length = s.examples.length := by
  induction fuel generalizing s with
  | zero => simp [close_stack]
  | succ fuel ih =>
    rw [close_stack]
    split
    · simp
    · obtain ⟨a1, a2, a3, a4, a5, a6, a7, a8, a9, a10, a11, a12⟩ :=
        stop_example_frame s false
      obtain ⟨b1, b2, b3, b4, b5, b6, b7, b8, b9, b10, b11, b12⟩ :=
        ih (stop_example s false).1
      exact ⟨b1.trans a1, b2.trans a2, b3.trans a3, b4.trans a4, b5.trans a5,
        b6.trans a6, b7.trans a7, b8.trans a8, b9.trans a9, b10.trans a10,
        b11.trans a11, b12.trans a12⟩

theorem freeze_frame (s : ConjectureData) :
    (freeze s).buffer = s.buffer ∧
    (freeze s).blocks = s.blocks ∧
    (freeze s).block_starts = s.block_starts ∧
    (freeze s).status = s.status ∧
    (freeze s).overdraw = s.overdraw ∧
    (freeze s).testcounter = s.testcounter ∧
    (freeze s).max_length = s.max_length ∧
    (freeze s).interesting_origin = s.interesting_origin ∧
    (freeze s).max_depth = s.max_depth ∧
    (freeze s).is_find = s.is_find ∧
    (freeze s).examples.length = s.examples.length := by
  unfold freeze
  split
  · simp
  · have h := close_stack_frame s.example_stack.length s
    tauto

theorem freeze_frozen (s : ConjectureData) : (freeze s).frozen = true ∨ freeze s = s := by
  unfold freeze
  split
  · right; rfl
  · left; rfl

theorem set_append_last {α : Type} (l : List α) (a b : α) :
    (l ++ [a]).set l.length b = l ++ [b] := by
  rw [List.set_append_right _ _ (Nat.le_refl _)]
  simp

/-! ## Shape of a successful `draw_bits` -/

/-- The block recorded by a successful `draw_bits` on state `s` that decoded
the value `v`. -/
def drawnBlock (s : ConjectureData) (n v : Nat) (isF : Bool) : Block :=
  { start := s.buffer.length, stop := s.buffer.length + bits_to_bytes n,
    bits := n, index := s.blocks.length, forced := isF,
    all_zero := decide (v = 0) }

/-- The example list after a successful `draw_bits` on state `s` whose block
had triviality `triv` and whose recorded span ends at `stopAt`: the closed
primitive-draw example is appended, and the open parent (if any) gains it as
a last child and is marked non-trivial if the block was. -/
def draw_examples_after (s : ConjectureData) (triv : Bool) (stopAt : Nat) :
    List Example :=
  let i := s.examples.length
  let base := s.examples ++
    [{ depth := s.example_stack.length, label := DRAW_BYTES_LABEL, index := i,
       start := s.buffer.length, stop := some stopAt, trivial := triv,
       discarded := some false, children := [] }]
  match s.example_stack with
  | [] => base
  | p :: _ =>
      let pe := s.examples.getD p default
      base.set p { pe with children := pe.children ++ [i],
                           trivial := pe.trivial && triv }

theorem ite_pair {A B : Type} (c : Prop) [Decidable c] (a : A) (x y : B) :
    (if c then (a, x) else (a, y)) = (a, if c then x else y) := by
  split <;> rfl

/-- Full characterisation of the recording tail of `draw_bits` on an
unfrozen state whose stack entries are in range: the mutated state is the
same whether or not the final `assert bit_length(result) <= n` passes
(Python mutations before a raise survive it). -/
theorem draw_bits_record_eq (s : ConjectureData) (n : Nat) (buf0 : List Nat)
    (isF : Bool) (hfz : s.frozen = false)
    (hlen : buf0.length = bits_to_bytes n)
    (hstk : ∀ p ∈ s.example_stack, p < s.examples.length) :
    draw_bits_record s n (bits_to_bytes n) buf0 isF =
      ({ s with
          examples := draw_examples_after s
            (isF || decide (int_from_bytes (maskBuf n buf0) = 0))
            (s.buffer.length + bits_to_bytes n),
          blocks := s.blocks ++
            [drawnBlock s n (int_from_bytes (maskBuf n buf0)) isF],
          block_starts := fun m =>
            if m = bits_to_bytes n then s.block_starts m ++ [s.buffer.length]
            else s.block_starts m,
          buffer := s.buffer ++ maskBuf n buf0,
          max_depth := max s.max_depth s.example_stack.length },
        if bit_length (int_from_bytes (maskBuf n buf0)) ≤ n then
          Except.ok (int_from_bytes (maskBuf n buf0))
        else Except.error DrawError.assertionError) := by
  have hmlen : (maskBuf n buf0).length = bits_to_bytes n := by
    rw [mask_length, hlen]
  cases hs : s.example_stack with
  | nil =>
    simp only [draw_bits_record, start_example, stop_example, hfz, hs, hmlen,
      set_append_last, getD_append_self, drawnBlock, Block.trivial,
      draw_examples_after, ConjectureData.index, Bool.false_eq_true,
      if_false, if_true, ite_self, List.length_nil, List.length_append,
      List.length_cons, Nat.lt_add_one, ite_true, List.nil_append,
      Bool.or_false, ite_pair]
  | cons p rest =>
    have hp : p < s.examples.length := hstk p (by rw [hs]; exact List.mem_cons_self _ _)
    have hpi : p ≠ s.examples.length := Nat.ne_of_lt hp
    have hip : s.examples.length ≠ p := fun h => hpi h.symm
    cases ht : (isF || decide (int_from_bytes (maskBuf n buf0) = 0)) with
    | true =>
      simp only [draw_bits_record, start_example, stop_example, hfz, hs, hmlen,
        ht, drawnBlock, Block.trivial, draw_examples_after,
        ConjectureData.index, Bool.false_eq_true, if_false, if_true, ite_self,
        List.length_nil, List.length_append, List.length_cons, Nat.lt_add_one,
        ite_true, List.nil_append, Bool.or_false, Bool.and_true,
        List.length_set, List.getD_append _ _ _ _ hp, getD_set_ne hpi,
        getD_append_self, getD_set_self, List.set_set, ite_pair]
      rw [List.set_comm _ _ _ hpi, set_append_last]
    | false =>
      have hp1 : p < s.examples.length + 1 := Nat.lt_succ_of_lt hp
      simp only [draw_bits_record, start_example, stop_example, hfz, hs, hmlen,
        ht, drawnBlock, Block.trivial, draw_examples_after,
        ConjectureData.index, Bool.false_eq_true, if_false, if_true, ite_self,
        List.length_nil, List.length_append, List.length_cons, Nat.lt_add_one,
        ite_true, List.nil_append, Bool.or_false, Bool.and_false,
        List.length_set, List.getD_append _ _ _ _ hp, getD_set_ne hpi,
        getD_set_ne hip, hp1, getD_append_self, getD_set_self, List.set_set,
        ite_pair]
      rw [List.set_comm _ _ _ hpi, List.set_set, List.set_comm _ _ _ hip,
        List.set_set, List.set_comm _ _ _ hpi, set_append_last]

/-- Full characterisation of the state and value produced by the recording
tail of `draw_bits`, when the decoded value fits in `n` bits. -/
theorem draw_bits_record_spec (s : ConjectureData) (n : Nat) (buf0 : List Nat)
    (isF : Bool) (hfz : s.frozen = false)
    (hlen : buf0.length = bits_to_bytes n)
    (hstk : ∀ p ∈ s.example_stack, p < s.examples.length)
    (hv : int_from_bytes (maskBuf n buf0) < 2 ^ n) :
    draw_bits_record s n (bits_to_bytes n) buf0 isF =
      ({ s with
          examples := draw_examples_after s
            (isF || decide (int_from_bytes (maskBuf n buf0) = 0))
            (s.buffer.length + bits_to_bytes n),
          blocks := s.blocks ++
            [drawnBlock s n (int_from_bytes (maskBuf n buf0)) isF],
          block_starts := fun m =>
            if m = bits_to_bytes n then s.block_starts m ++ [s.buffer.length]
            else s.block_starts m,
          buffer := s.buffer ++ maskBuf n buf0,
          max_depth := max s.max_depth s.example_stack.length },
        Except.ok (int_from_bytes (maskBuf n buf0))) := by
  rw [draw_bits_record_eq s n buf0 isF hfz hlen hstk,
    if_pos ((bit_length_le_iff _ _).2 hv)]

/-- Masking is a no-op on the encoding of a value that already fits in `n`
bits. -/
theorem maskBuf_int_to_bytes {n f : Nat} (hf : f < 2 ^ n) :
    maskBuf n (int_to_bytes f (bits_to_bytes n)) = int_to_bytes f (bits_to_bytes n) := by
  by_cases h : n % 8 = 0
  · rw [maskBuf, if_neg (by simp [h])]
  · rw [maskBuf, if_pos (by simp [h]), bits_to_bytes_of_mod_ne_zero h,
      int_to_bytes, mask_first, mask_head_eq]
    have hq : f / 256 ^ (n / 8) < 2 ^ (n % 8) := by
      rw [Nat.div_lt_iff_lt_mul (Nat.pos_pow_of_pos _ (by norm_num))]
      calc f < 2 ^ n := hf
        _ = 2 ^ (n % 8) * 256 ^ (n / 8) := by
            rw [pow256, ← pow_add]
            congr 1
            omega
    have hlt256 : f / 256 ^ (n / 8) < 256 := by
      have : (2 : Nat) ^ (n % 8) ≤ 2 ^ 8 :=
        Nat.pow_le_pow_right (by norm_num) (Nat.le_of_lt (Nat.mod_lt _ (by norm_num)))
      omega
    rw [Nat.mod_eq_of_lt hlt256, Nat.mod_eq_of_lt hq]

/-- A forced `draw_bits` that fits in `n` bits, on an unfrozen record with
capacity: full characterisation.  The value returned is exactly `forced`. -/
theorem draw_bits_forced_eq (src : ByteSource) (s : ConjectureData) (n f : Nat)
    (hfz : s.frozen = false)
    (hcap : s.buffer.length + bits_to_bytes n ≤ s.max_length)
    (hstk : ∀ p ∈ s.example_stack, p < s.examples.length)
    (hf : f < 2 ^ n) :
    draw_bits src s n (some f) =
      ({ s with
          examples := draw_examples_after s true
            (s.buffer.length + bits_to_bytes n),
          blocks := s.blocks ++ [drawnBlock s n f true],
          block_starts := fun m =>
            if m = bits_to_bytes n then s.block_starts m ++ [s.buffer.length]
            else s.block_starts m,
          buffer := s.buffer ++ int_to_bytes f (bits_to_bytes n),
          max_depth := max s.max_depth s.example_stack.length },
        Except.ok f) := by
  have hfits : f < 256 ^ bits_to_bytes n := by
    calc f < 2 ^ n := hf
      _ ≤ 2 ^ (8 * bits_to_bytes n) :=
          Nat.pow_le_pow_right (by norm_num) le_eight_mul_bits_to_bytes
      _ = 256 ^ bits_to_bytes n := (pow256 _).symm
  have hval : int_from_bytes (maskBuf n (int_to_bytes f (bits_to_bytes n))) = f := by
    rw [maskBuf_int_to_bytes hf, int_from_to_bytes]
    exact Nat.mod_eq_of_lt hfits
  rw [draw_bits, if_neg (by simp [hfz]),
    if_neg (by simp [ConjectureData.index]; omega)]
  dsimp only
  rw [if_pos hfits]
  rw [draw_bits_record_spec s n _ true hfz (length_int_to_bytes f _) hstk
    (by rw [hval]; exact hf)]
  rw [maskBuf_int_to_bytes hf]
  simp [int_from_to_bytes, Nat.mod_eq_of_lt hfits]

/-- A source-backed `draw_bits` on an unfrozen record with capacity, given
the byte-source contract (right length, real bytes): full characterisation. -/
theorem draw_bits_source_eq (src : ByteSource) (s : ConjectureData) (n : Nat)
    (hfz : s.frozen = false)
    (hcap : s.buffer.length + bits_to_bytes n ≤ s.max_length)
    (hstk : ∀ p ∈ s.example_stack, p < s.examples.length)
    (hslen : (src s (bits_to_bytes n)).length = bits_to_bytes n)
    (hsb : ∀ x ∈ src s (bits_to_bytes n), x < 256) :
    draw_bits src s n none =
      ({ s with
          examples := draw_examples_after s
            (decide (int_from_bytes (maskBuf n (src s (bits_to_bytes n))) = 0))
            (s.buffer.length + bits_to_bytes n),
          blocks := s.blocks ++
            [drawnBlock s n
              (int_from_bytes (maskBuf n (src s (bits_to_bytes n)))) false],
          block_starts := fun m =>
            if m = bits_to_bytes n then s.block_starts m ++ [s.buffer.length]
            else s.block_starts m,
          buffer := s.buffer ++ maskBuf n (src s (bits_to_bytes n)),
          max_depth := max s.max_depth s.example_stack.length },
        Except.ok (int_from_bytes (maskBuf n (src s (bits_to_bytes n))))) := by
  have hv : int_from_bytes (maskBuf n (src s (bits_to_bytes n))) < 2 ^ n :=
    mask_value_lt n _ hslen hsb
  rw [draw_bits, if_neg (by simp [hfz]),
    if_neg (by simp [ConjectureData.index]; omega), if_pos hslen]
  rw [draw_bits_record_spec s n _ false hfz hslen hstk hv]
  simp

/-- Inversion: a successful recording tail returns the masked decoded value,
and that value passed the final bit-length assert. -/
theorem draw_bits_record_ok_inv (s : ConjectureData) (n nb : Nat)
    (buf0 : List Nat) (isF : Bool) (S : ConjectureData) (v : Nat)
    (h : draw_bits_record s n nb buf0 isF = (S, Except.ok v)) :
    v = int_from_bytes (maskBuf n buf0) ∧ bit_length v ≤ n := by
  rw [draw_bits_record] at h
  by_cases hb : bit_length (int_from_bytes (maskBuf n buf0)) ≤ n
  · rw [if_pos hb] at h
    have := congrArg Prod.snd h
    simp only at this
    cases this
    exact ⟨rfl, hb⟩
  · rw [if_neg hb] at h
    have := congrArg Prod.snd h
    simp only at this
    cases this

/-- Inversion: a `draw_bits` call that returns `ok v` was made on an
unfrozen record with enough capacity, and `v` fits in `n` bits. -/
theorem draw_bits_ok_inv (src : ByteSource) (s : ConjectureData) (n : Nat)
    (forced : Option Nat) (S : ConjectureData) (v : Nat)
    (h : draw_bits src s n forced = (S, Except.ok v)) :
    s.frozen = false ∧
    s.buffer.length + bits_to_bytes n ≤ s.max_length ∧
    bit_length v ≤ n := by
  rw [draw_bits] at h
  by_cases hfz : s.frozen
  · rw [if_pos hfz] at h
    cases congrArg Prod.snd h
  · rw [if_neg hfz] at h
    by_cases hcap : s.index + bits_to_bytes n > s.max_length
    · rw [if_pos hcap] at h
      cases congrArg Prod.snd h
    · rw [if_neg hcap] at h
      refine ⟨by simpa using hfz, by simpa [ConjectureData.index] using hcap, ?_⟩
      match forced, h with
      | some f, h =>
        dsimp only at h
        by_cases hof : f < 256 ^ bits_to_bytes n
        · rw [if_pos hof] at h
          exact (draw_bits_record_ok_inv _ _ _ _ _ _ _ h).2
        · rw [if_neg hof] at h
          cases congrArg Prod.snd h
      | none, h =>
        dsimp only at h
        by_cases hL : (src s (bits_to_bytes n)).length = bits_to_bytes n
        · rw [if_pos hL] at h
          exact (draw_bits_record_ok_inv _ _ _ _ _ _ _ h).2
        · rw [if_neg hL] at h
          cases congrArg Prod.snd h

/-- The example appended by a successful draw, read back from
`draw_examples_after`. -/
theorem draw_examples_after_new (s : ConjectureData) (triv : Bool)
    (stopAt : Nat)
    (hstk : ∀ p ∈ s.example_stack, p < s.examples.length) :
    (draw_examples_after s triv stopAt).getD s.examples.length default =
      { depth := s.example_stack.length, label := DRAW_BYTES_LABEL,
        index := s.examples.length, start := s.buffer.length,
        stop := some stopAt, trivial := triv, discarded := some false,
        children := [] } ∧
    (draw_examples_after s triv stopAt).length = s.examples.length + 1 := by
  cases hs : s.example_stack with
  | nil => simp [draw_examples_after, hs, getD_append_self]
  | cons p rest =>
    have hp : p < s.examples.length :=
      hstk p (by rw [hs]; exact List.mem_cons_self _ _)
    have hpi : p ≠ s.examples.length := Nat.ne_of_lt hp
    simp only [draw_examples_after, hs]
    constructor
    · rw [getD_set_ne hpi, getD_append_self]
    · simp


theorem freeze_frozen_of_not (s : ConjectureData) (h : s.frozen = false) :
    (freeze s).frozen = true := by
  rw [freeze, if_neg (by simp [h])]

/-- The raw bytes a `draw_bits(n, forced)` call works from: the big-endian
encoding of `forced`, or a pull from the byte source. -/
def buf0Of (src : ByteSource) (s : ConjectureData) (n : Nat)
    (forced : Option Nat) : List Nat :=
  match forced with
  | some f => int_to_bytes f (bits_to_bytes n)
  | none => src s (bits_to_bytes n)

/-- Full-state inversion of a successful `draw_bits` call. -/
theorem draw_bits_ok_shape (src : ByteSource) (s : ConjectureData) (n : Nat)
    (forced : Option Nat) (S : ConjectureData) (v : Nat)
    (hstk : ∀ p ∈ s.example_stack, p < s.examples.length)
    (h : draw_bits src s n forced = (S, Except.ok v)) :
    v = int_from_bytes (maskBuf n (buf0Of src s n forced)) ∧
    S = { s with
          examples := draw_examples_after s (forced.isSome || decide (v = 0))
            (s.buffer.length + bits_to_bytes n),
          blocks := s.blocks ++ [drawnBlock s n v forced.isSome],
          block_starts := fun m =>
            if m = bits_to_bytes n then s.block_starts m ++ [s.buffer.length]
            else s.block_starts m,
          buffer := s.buffer ++ maskBuf n (buf0Of src s n forced),
          max_depth := max s.max_depth s.example_stack.length } := by
  obtain ⟨hfz, hcap, hbl⟩ := draw_bits_ok_inv src s n forced S v h
  rw [draw_bits, if_neg (by simp [hfz]),
    if_neg (by simp [ConjectureData.index]; omega)] at h
  match forced, h with
  | some f, h =>
    dsimp only at h
    by_cases hof : f < 256 ^ bits_to_bytes n
    · rw [if_pos hof] at h
      obtain ⟨hveq, hble⟩ := draw_bits_record_ok_inv _ _ _ _ _ _ _ h
      have hv : int_from_bytes (maskBuf n (int_to_bytes f (bits_to_bytes n))) < 2 ^ n := by
        rw [← hveq]; exact (bit_length_le_iff _ _).1 hbl
      rw [draw_bits_record_spec s n _ true hfz (length_int_to_bytes f _) hstk hv] at h
      have hS := congrArg Prod.fst h
      simp only at hS
      refine ⟨by simpa [buf0Of] using hveq, ?_⟩
      rw [← hS, hveq]
      rfl
    · rw [if_neg hof] at h
      cases congrArg Prod.snd h
  | none, h =>
    dsimp only at h
    by_cases hL : (src s (bits_to_bytes n)).length = bits_to_bytes n
    · rw [if_pos hL] at h
      obtain ⟨hveq, hble⟩ := draw_bits_record_ok_inv _ _ _ _ _ _ _ h
      have hv : int_from_bytes (maskBuf n (src s (bits_to_bytes n))) < 2 ^ n := by
        rw [← hveq]; exact (bit_length_le_iff _ _).1 hbl
      rw [draw_bits_record_spec s n _ false hfz hL hstk hv] at h
      have hS := congrArg Prod.fst h
      simp only at hS
      refine ⟨by simpa [buf0Of] using hveq, ?_⟩
      rw [← hS, hveq]
      rfl
    · rw [if_neg hL] at h
      cases congrArg Prod.snd h

/-! ## Claim theorems -/

/-- C1: for every `n` in `0..64` and every forced value with
`bit_length forced ≤ n`, `draw_bits(n, forced)` on an unfrozen record with
enough remaining capacity returns exactly `forced`, and the Block appended by
the call has `forced = true`.  (`hstk` states that the stack holds indices
into the example list, which holds for every record the constructor builds.) -/
theorem claim_C1 (src : ByteSource) (s : ConjectureData) (n f : Nat)
    (hn : n ≤ 64) (hfz : s.frozen = false)
    (hbl : bit_length f ≤ n)
    (hcap : s.buffer.length + bits_to_bytes n ≤ s.max_length)
    (hstk : ∀ p ∈ s.example_stack, p < s.examples.length) :
    (draw_bits src s n (some f)).2 = Except.ok f ∧
    ((draw_bits src s n (some f)).1.blocks.getLast?.map Block.forced) =
      some true := by
  have hf : f < 2 ^ n := (bit_length_le_iff f n).1 hbl
  rw [draw_bits_forced_eq src s n f hfz hcap hstk hf]
  refine ⟨rfl, ?_⟩
  simp [List.getLast?_append, drawnBlock]

theorem claim_C1_witness :
    (13 ≤ 64 ∧ (initial_state 2 0).frozen = false ∧ bit_length 100 ≤ 13 ∧
      (initial_state 2 0).buffer.length + bits_to_bytes 13 ≤
        (initial_state 2 0).max_length ∧
      (∀ p ∈ (initial_state 2 0).example_stack,
        p < (initial_state 2 0).examples.length)) ∧
    ((draw_bits (fun _ _ => []) (initial_state 2 0) 13 (some 100)).2 =
        Except.ok 100 ∧
      ((draw_bits (fun _ _ => []) (initial_state 2 0) 13
          (some 100)).1.blocks.getLast?.map Block.forced) = some true) :=
  ⟨⟨by norm_num, rfl, (bit_length_le_iff 100 13).2 (by norm_num), by decide,
      by decide⟩,
    claim_C1 (fun _ _ => []) (initial_state 2 0) 13 100 (by norm_num) rfl
      ((bit_length_le_iff 100 13).2 (by norm_num)) (by decide) (by decide)⟩

/-- C2 (amended): after freezing, `draw_bits`, `write` and `start_example`
fail with the `Frozen` usage error naming the attempted operation and leave
the record completely unchanged; `draw` leaves the record unchanged and never
succeeds (the error raised is the one from the first guard it trips);
`stop_example`, however, returns silently without an error — it performs no
mutation, but does not fail as the original claim states. -/
theorem claim_C2 (src : ByteSource) (s : ConjectureData) (n : Nat)
    (forced : Option Nat) (bs : List Nat) (label : Nat) (d : Bool)
    (strat : Strategy) (labelArg : Option Nat)
    (hfz : s.frozen = true) :
    draw_bits src s n forced =
      (s, Except.error (DrawError.frozenError ("draw_bits"))) ∧
    write src s bs = (s, Except.error (DrawError.frozenError ("write"))) ∧
    start_example s label =
      (s, Except.error (DrawError.frozenError ("start_example"))) ∧
    stop_example s d = (s, Except.ok ()) ∧
    (draw s strat labelArg).1 = s ∧
    (∀ v, (draw s strat labelArg).2 ≠ Except.ok v) := by
  have hconc : mark_invalid s =
      (s, Except.error (DrawError.frozenError ("conclude_test"))) := by
    simp [mark_invalid, conclude_test, hfz]
  have hdraw : ∃ e, draw s strat labelArg = (s, Except.error e) := by
    rw [draw]
    split
    · exact ⟨_, rfl⟩
    · split
      · rw [hconc]
        exact ⟨_, rfl⟩
      · split
        · rw [hconc]
          exact ⟨_, rfl⟩
        · refine ⟨DrawError.frozenError ("start_example"), ?_⟩
          simp [draw_inner, start_example, stop_example, hfz]
  obtain ⟨e, he⟩ := hdraw
  refine ⟨by simp [draw_bits, hfz], by simp [write, hfz],
    by simp [start_example, hfz], by simp [stop_example, hfz],
    by rw [he], by rw [he]; intro v hv; cases hv⟩

theorem claim_C2_counterexample :
    (freeze (initial_state 0 0)).frozen = true ∧
    stop_example (freeze (initial_state 0 0)) true =
      (freeze (initial_state 0 0), Except.ok ()) :=
  ⟨rfl, rfl⟩

theorem claim_C2_witness :
    (freeze (initial_state 0 0)).frozen = true ∧
    (draw_bits (fun _ _ => []) (freeze (initial_state 0 0)) 8 none =
      (freeze (initial_state 0 0),
        Except.error (DrawError.frozenError ("draw_bits")))) :=
  ⟨rfl,
    (claim_C2 (fun _ _ => []) (freeze (initial_state 0 0)) 8 none [] 0 false
      ⟨true, false, 0, true, fun t => (t, Except.ok 0)⟩ none rfl).1⟩

/-- C3: a draw that would overrun `max_length` sets
`overdraw = requested_total - max_length`, sets `status = OVERRUN`, freezes
the record and raises `StopTest` tagged with the record's `testcounter`,
without touching the buffer, the block list or the block-start index. -/
theorem claim_C3 (src : ByteSource) (s : ConjectureData) (n : Nat)
    (forced : Option Nat) (hfz : s.frozen = false)
    (hover : s.max_length < s.buffer.length + bits_to_bytes n) :
    (draw_bits src s n forced).2 =
      Except.error (DrawError.stopTest s.testcounter) ∧
    (draw_bits src s n forced).1.overdraw =
      s.buffer.length + bits_to_bytes n - s.max_length ∧
    (draw_bits src s n forced).1.status = Status.overrun ∧
    (draw_bits src s n forced).1.frozen = true ∧
    (draw_bits src s n forced).1.buffer = s.buffer ∧
    (draw_bits src s n forced).1.blocks = s.blocks ∧
    (draw_bits src s n forced).1.block_starts = s.block_starts := by
  rw [draw_bits, if_neg (by simp [hfz]),
    if_pos (by simp [ConjectureData.index]; omega)]
  obtain ⟨hb, hbl, hbs, hst, hov, htc, hml, hio, hmd, hif, hex⟩ :=
    freeze_frame { s with
      overdraw := s.index + bits_to_bytes n - s.max_length,
      status := Status.overrun }
  exact ⟨rfl, hov, hst, freeze_frozen_of_not _ (by simpa using hfz), hb, hbl, hbs⟩

theorem claim_C3_witness :
    ((initial_state 1 5).frozen = false ∧
      (initial_state 1 5).max_length <
        (initial_state 1 5).buffer.length + bits_to_bytes 16) ∧
    ((draw_bits (fun _ _ => [0, 0]) (initial_state 1 5) 16 none).2 =
        Except.error (DrawError.stopTest 5) ∧
      (draw_bits (fun _ _ => [0, 0]) (initial_state 1 5) 16 none).1.overdraw = 1 ∧
      (draw_bits (fun _ _ => [0, 0]) (initial_state 1 5) 16 none).1.status =
        Status.overrun) := by
  have h := claim_C3 (fun _ _ => [0, 0]) (initial_state 1 5) 16 none rfl
    (by decide)
  exact ⟨⟨rfl, by decide⟩, h.1, h.2.1, h.2.2.1⟩

/-- The recording tail of `draw_bits` in the order the spec describes it
(steps 5-7): set the primitive example's `trivial` and CLOSE it first, then
append the Block and index its start, then append the raw bytes.  Written
only to compare against `draw_bits_record`, which is the source's order. -/
def draw_bits_record_as_specified (s : ConjectureData) (n n_bytes : Nat)
    (buf0 : List Nat) (isForced : Bool) : ConjectureData × Except DrawError Nat :=
  let buf := maskBuf n buf0
  let result := int_from_bytes buf
  let exIdx := s.examples.length
  let s1 := (start_example s DRAW_BYTES_LABEL).1
  let initial := s1.index
  let block : Block :=
    { start := initial, stop := initial + n_bytes, bits := n,
      index := s1.blocks.length, forced := isForced,
      all_zero := decide (result = 0) }
  let e := s1.examples.getD exIdx default
  let s2 :=
    { s1 with
      examples := s1.examples.set exIdx { e with trivial := block.trivial } }
  let s3 := (stop_example s2 false).1
  let s4 :=
    { s3 with
      block_starts := fun m =>
        if m = n_bytes then s3.block_starts m ++ [block.start]
        else s3.block_starts m,
      blocks := s3.blocks ++ [block] }
  let s5 := { s4 with buffer := s4.buffer ++ buf }
  if bit_length result ≤ n then (s5, .ok result)
  else (s5, .error .assertionError)

/-- C4's ordering is observable: drawing one forced zero byte from a fresh
record, the source's order closes the primitive example after the byte is
appended (its `end` is 1), while the spec's step order would close it before
(its `end` would be 0).  The final states differ. -/
theorem claim_C4_counterexample :
    ((draw_bits_record (initial_state 1 0) 8 1 (int_to_bytes 0 1) true).1.examples.getD
        1 default).stop = some 1 ∧
    ((draw_bits_record_as_specified (initial_state 1 0) 8 1 (int_to_bytes 0 1)
        true).1.examples.getD 1 default).stop = some 0 ∧
    (draw_bits (fun _ _ => []) (initial_state 1 0) 8 (some 0)).1 ≠
      (draw_bits_record_as_specified (initial_state 1 0) 8 1 (int_to_bytes 0 1)
        true).1 := by
  refine ⟨rfl, rfl, ?_⟩
  intro h
  have := congrArg (fun t => (t.examples.getD 1 default).stop) h
  simp only at this
  cases this

/-- C4 (amended): every successful `draw_bits` opens an example labelled as a
primitive draw and sets its `trivial` flag from the Block's trivial property,
appends the Block (with `forced`/`all_zero` as claimed) and indexes its start
under its byte-length bucket, and appends the raw bytes to the buffer — but
the example is closed only AFTER the block and the bytes have been recorded,
so its recorded `end` is the end of the drawn bytes, not its start. -/
theorem claim_C4 (src : ByteSource) (s : ConjectureData) (n : Nat)
    (forced : Option Nat) (S : ConjectureData) (v : Nat)
    (hstk : ∀ p ∈ s.example_stack, p < s.examples.length)
    (h : draw_bits src s n forced = (S, Except.ok v)) :
    S.buffer = s.buffer ++ maskBuf n (buf0Of src s n forced) ∧
    S.blocks = s.blocks ++ [drawnBlock s n v forced.isSome] ∧
    S.block_starts (bits_to_bytes n) =
      s.block_starts (bits_to_bytes n) ++ [s.buffer.length] ∧
    (∀ m, m ≠ bits_to_bytes n → S.block_starts m = s.block_starts m) ∧
    S.examples.getD s.examples.length default =
      { depth := s.example_stack.length, label := DRAW_BYTES_LABEL,
        index := s.examples.length, start := s.buffer.length,
        stop := some (s.buffer.length + bits_to_bytes n),
        trivial := (drawnBlock s n v forced.isSome).trivial,
        discarded := some false, children := [] } := by
  obtain ⟨hveq, hS⟩ := draw_bits_ok_shape src s n forced S v hstk h
  subst hS
  refine ⟨rfl, rfl, by simp, fun m hm => by simp [hm], ?_⟩
  rw [(draw_examples_after_new s _ _ hstk).1]
  simp [drawnBlock, Block.trivial]

theorem claim_C4_witness :
    ((∀ p ∈ (initial_state 3 0).example_stack,
        p < (initial_state 3 0).examples.length) ∧
      draw_bits (fun _ _ => [0]) (initial_state 3 0) 8 none =
        ((draw_bits (fun _ _ => [0]) (initial_state 3 0) 8 none).1,
          Except.ok 0)) ∧
    ((draw_bits (fun _ _ => [0]) (initial_state 3 0) 8 none).1.buffer =
        (initial_state 3 0).buffer ++
          maskBuf 8 (buf0Of (fun _ _ => [0]) (initial_state 3 0) 8 none) ∧
      (draw_bits (fun _ _ => [0]) (initial_state 3 0) 8 none).1.examples.getD
          (initial_state 3 0).examples.length default =
        { depth := (initial_state 3 0).example_stack.length,
          label := DRAW_BYTES_LABEL,
          index := (initial_state 3 0).examples.length,
          start := (initial_state 3 0).buffer.length,
          stop := some ((initial_state 3 0).buffer.length + bits_to_bytes 8),
          trivial := (drawnBlock (initial_state 3 0) 8 0 false).trivial,
          discarded := some false, children := [] }) := by
  have h := claim_C4 (fun _ _ => [0]) (initial_state 3 0) 8 none _ 0
    (by decide) rfl
  exact ⟨⟨by decide, rfl⟩, h.1, h.2.2.2.2⟩

/-- C9: closing a zero-length region records `discarded = false` and does not
set `has_discards`, even when the caller requested a discard. -/
theorem claim_C9 (s : ConjectureData) (d : Bool) (k : Nat) (rest : List Nat)
    (hfz : s.frozen = false) (hst : s.example_stack = k :: rest)
    (hk : k < s.examples.length)
    (hstart : (exAt s k).start = s.buffer.length) :
    ((stop_example s d).1.examples.getD k default).discarded = some false ∧
    (stop_example s d).1.has_discards = s.has_discards := by
  have hdis : (if s.index = (s.examples.getD k default).start then false else d)
      = false := by
    rw [if_pos]
    rw [ConjectureData.index]
    exact (hstart).symm
  rw [stop_example, if_neg (by simp [hfz]), hst]
  dsimp only
  rw [if_pos hk]
  dsimp only
  rw [hdis]
  cases rest with
  | nil =>
    constructor
    · rw [getD_set_self (by simp [hk])]
    · simp
  | cons p rest' =>
    dsimp only
    by_cases htr : (s.examples.getD k default).trivial = true
    · rw [if_pos htr]
      constructor
      · rw [getD_set_self (by simp [hk])]
      · simp
    · rw [if_neg htr]
      constructor
      · rw [getD_set_self (by simp [hk])]
      · simp

theorem claim_C9_witness :
    ((initial_state 4 0).frozen = false ∧
      (initial_state 4 0).example_stack = 0 :: [] ∧
      0 < (initial_state 4 0).examples.length ∧
      (exAt (initial_state 4 0) 0).start = (initial_state 4 0).buffer.length) ∧
    (((stop_example (initial_state 4 0) true).1.examples.getD 0
        default).discarded = some false ∧
      (stop_example (initial_state 4 0) true).1.has_discards =
        (initial_state 4 0).has_discards) :=
  ⟨⟨rfl, rfl, by decide, rfl⟩,
    claim_C9 (initial_state 4 0) true 0 [] rfl rfl (by decide) rfl⟩

/-- C10: `draw_bits(0)`, forced to 0 or not, succeeds, returns 0, appends a
zero-length all-zero Block of 0 bits, records a closed zero-length trivial
primitive example, leaves the buffer unchanged, and adds the block's start to
the width-0 bucket of the block-start index.  (`hsl` is the byte-source
contract for a 0-byte pull.) -/
theorem claim_C10 (src : ByteSource) (s : ConjectureData)
    (forced : Option Nat) (hfz : s.frozen = false)
    (hcap : s.buffer.length < s.max_length)
    (hstk : ∀ p ∈ s.example_stack, p < s.examples.length)
    (hsl : (src s 0).length = 0)
    (hforc : forced = none ∨ forced = some 0) :
    (draw_bits src s 0 forced).2 = Except.ok 0 ∧
    (draw_bits src s 0 forced).1.blocks = s.blocks ++
      [{ start := s.buffer.length, stop := s.buffer.length, bits := 0,
         index := s.blocks.length, forced := forced.isSome,
         all_zero := true }] ∧
    (draw_bits src s 0 forced).1.buffer = s.buffer ∧
    (draw_bits src s 0 forced).1.block_starts 0 =
      s.block_starts 0 ++ [s.buffer.length] ∧
    (∀ m, m ≠ 0 → (draw_bits src s 0 forced).1.block_starts m =
      s.block_starts m) ∧
    (draw_bits src s 0 forced).1.examples.getD s.examples.length default =
      { depth := s.example_stack.length, label := DRAW_BYTES_LABEL,
        index := s.examples.length, start := s.buffer.length,
        stop := some s.buffer.length, trivial := true, discarded := some false,
        children := [] } ∧
    (draw_bits src s 0 forced).1.examples.length = s.examples.length + 1 := by
  have hnb : bits_to_bytes 0 = 0 := rfl
  have hcap' : s.buffer.length + bits_to_bytes 0 ≤ s.max_length := by
    rw [hnb]; omega
  have hnew := draw_examples_after_new s true s.buffer.length hstk
  rcases hforc with hfo | hfo <;> subst hfo
  · have hnil : src s 0 = [] := List.eq_nil_of_length_eq_zero hsl
    have heq := draw_bits_source_eq src s 0 hfz hcap' hstk
      (by rw [hnb, hsl]) (by rw [hnb, hnil]; intro x hx; cases hx)
    rw [hnb, hnil] at heq
    rw [show maskBuf 0 ([] : List Nat) = [] from rfl] at heq
    rw [show int_from_bytes ([] : List Nat) = 0 from rfl] at heq
    rw [heq]
    refine ⟨rfl, by simp [drawnBlock, hnb], by simp, by simp [hnb], ?_, ?_, ?_⟩
    · intro m hm
      simp [hnb, hm]
    · have := hnew.1
      simp only [hnb, Nat.add_zero] at *
      simpa using this
    · have := hnew.2
      simpa using this
  · have heq := draw_bits_forced_eq src s 0 0 hfz hcap' hstk
      (by norm_num)
    rw [hnb] at heq
    rw [show int_to_bytes 0 0 = [] from rfl] at heq
    rw [heq]
    refine ⟨rfl, by simp [drawnBlock, hnb], by simp, by simp [hnb], ?_, ?_, ?_⟩
    · intro m hm
      simp [hnb, hm]
    · have := hnew.1
      simp only [hnb, Nat.add_zero] at *
      simpa using this
    · have := hnew.2
      simpa using this

theorem claim_C10_witness :
    ((initial_state 3 0).frozen = false ∧
      (initial_state 3 0).buffer.length < (initial_state 3 0).max_length ∧
      (∀ p ∈ (initial_state 3 0).example_stack,
        p < (initial_state 3 0).examples.length) ∧
      (((fun _ _ => []) : ByteSource) (initial_state 3 0) 0).length = 0) ∧
    ((draw_bits (fun _ _ => []) (initial_state 3 0) 0 none).2 = Except.ok 0 ∧
      (draw_bits (fun _ _ => []) (initial_state 3 0) 0 none).1.buffer =
        (initial_state 3 0).buffer ∧
      (draw_bits (fun _ _ => []) (initial_state 3 0) 0 none).1.block_starts 0 =
        (initial_state 3 0).block_starts 0 ++
          [(initial_state 3 0).buffer.length]) := by
  have h := claim_C10 (fun _ _ => []) (initial_state 3 0) none rfl (by decide)
    (by decide) rfl (Or.inl rfl)
  exact ⟨⟨rfl, by decide, by decide, rfl⟩, h.1, h.2.2.1, h.2.2.2.1⟩

/-! ## The reachable-state invariant -/

/-- The extent of an example so far: its `end` if closed, the current buffer
length if still open. -/
def endB (s : ConjectureData) (e : Example) : Nat := e.stop.getD s.buffer.length

/-- `partitions off bs len`: the blocks `bs`, in order, tile `[off, len)`
exactly: each block starts where its predecessor stopped, the first starts at
`off`, and the last stops at `len`. -/
def partitions : Nat → List Block → Nat → Prop
  | off, [], len => off = len
  | off, b :: bs, len => b.start = off ∧ off ≤ b.stop ∧ partitions b.stop bs len

/-- The open-example stack, top first: each deeper entry opened earlier
(smaller index), is the parent whose last child is the entry above it, and
starts no later than it. -/
def stack_chain (s : ConjectureData) : List Nat → Prop
  | [] => True
  | [_] => True
  | k :: p :: rest =>
      p < k ∧ (exAt s p).children.getLast? = some k ∧
      (exAt s p).start ≤ (exAt s k).start ∧ stack_chain s (p :: rest)

/-- Triviality bookkeeping for the open stack: the entry below the top is
only accountable for blocks up to the top's start (deeper non-trivial blocks
reach it lazily, when the examples between them close). -/
def stack_triv (s : ConjectureData) : Nat → List Nat → Prop
  | _, [] => True
  | ub, k :: rest =>
      ((exAt s k).trivial = true ↔
        ∀ b ∈ s.blocks, (exAt s k).start ≤ b.start → b.stop ≤ ub →
          b.trivial = true) ∧
      stack_triv s (exAt s k).start rest

/-- The well-formedness invariant maintained by every operation. -/
structure WF (s : ConjectureData) : Prop where
  idx_ex : ∀ i, i < s.examples.length → (exAt s i).index = i
  idx_blk : ∀ j, j < s.blocks.length → (s.blocks.getD j default).index = j
  open_iff : ∀ i, i < s.examples.length →
    ((exAt s i).stop = none ↔ i ∈ s.example_stack)
  stack_lt : ∀ k ∈ s.example_stack, k < s.examples.length
  chain : stack_chain s s.example_stack
  span : ∀ i, i < s.examples.length →
    (exAt s i).start ≤ endB s (exAt s i) ∧ endB s (exAt s i) ≤ s.buffer.length
  child_mem : ∀ i, i < s.examples.length → ∀ c ∈ (exAt s i).children,
    i < c ∧ c < s.examples.length
  child_span : ∀ i, i < s.examples.length → ∀ c ∈ (exAt s i).children,
    (exAt s i).start ≤ (exAt s c).start ∧
    endB s (exAt s c) ≤ endB s (exAt s i) ∧
    ((exAt s c).stop = none → (exAt s i).stop = none)
  child_chain : ∀ i, i < s.examples.length →
    List.Chain' (fun c1 c2 => ∃ e1, (exAt s c1).stop = some e1 ∧
      e1 ≤ (exAt s c2).start) (exAt s i).children
  closed_triv : ∀ i, i < s.examples.length → ∀ e, (exAt s i).stop = some e →
    ((exAt s i).trivial = true ↔
      ∀ b ∈ s.blocks, (exAt s i).start ≤ b.start → b.stop ≤ e →
        b.trivial = true)
  open_triv : stack_triv s s.buffer.length s.example_stack
  nt_len : ∀ b ∈ s.blocks, b.trivial = false → b.start < b.stop
  no_cross : ∀ k ∈ s.example_stack, ∀ b ∈ s.blocks,
    b.stop ≤ (exAt s k).start ∨ (exAt s k).start ≤ b.start
  part : partitions 0 s.blocks s.buffer.length
  frozen_stack : s.frozen = true → s.example_stack = []

/-! ### Structural helper lemmas -/

theorem partitions_mem : ∀ (off : Nat) (bs : List Block) (len : Nat),
    partitions off bs len →
    (off ≤ len ∧ ∀ b ∈ bs, off ≤ b.start ∧ b.start ≤ b.stop ∧ b.stop ≤ len) := by
  intro off bs
  induction bs generalizing off with
  | nil =>
    intro len h
    exact ⟨Nat.le_of_eq h, fun b hb => absurd hb (List.not_mem_nil b)⟩
  | cons b bs ih =>
    intro len h
    obtain ⟨hstart, hle, hrest⟩ := h
    obtain ⟨hlen, hall⟩ := ih b.stop len hrest
    refine ⟨by omega, ?_⟩
    intro c hc
    rcases List.mem_cons.1 hc with rfl | hc
    · exact ⟨by omega, by omega, hlen⟩
    · have := hall c hc
      exact ⟨by omega, this.2.1, this.2.2⟩

theorem partitions_append : ∀ (off : Nat) (bs : List Block) (len : Nat)
    (B : Block), partitions off bs len → B.start = len → len ≤ B.stop →
    partitions off (bs ++ [B]) B.stop := by
  intro off bs
  induction bs generalizing off with
  | nil =>
    intro len B h hs hl
    subst h
    exact ⟨hs, hl, rfl⟩
  | cons b bs ih =>
    intro len B h hs hl
    obtain ⟨hstart, hle, hrest⟩ := h
    exact ⟨hstart, hle, ih b.stop len B hrest hs hl⟩

/-- The entries below the top of a chained stack have smaller indices. -/
theorem stack_chain_lt (s : ConjectureData) :
    ∀ st k, stack_chain s (k :: st) → ∀ j ∈ st, j < k := by
  intro st
  induction st with
  | nil => intro k _ j hj; cases hj
  | cons p rest ih =>
    intro k h j hj
    obtain ⟨hpk, _, _, hrest⟩ := h
    rcases List.mem_cons.1 hj with rfl | hj
    · exact hpk
    · exact Nat.lt_trans (ih p hrest j hj) hpk

/-- The entries below the top of a chained stack start no later than it. -/
theorem stack_chain_start_le (s : ConjectureData) :
    ∀ st k, stack_chain s (k :: st) →
    ∀ j ∈ st, (exAt s j).start ≤ (exAt s k).start := by
  intro st
  induction st with
  | nil => intro k _ j hj; cases hj
  | cons p rest ih =>
    intro k h j hj
    obtain ⟨_, _, hsle, hrest⟩ := h
    rcases List.mem_cons.1 hj with rfl | hj
    · exact hsle
    · exact Nat.le_trans (ih p hrest j hj) hsle

theorem stack_chain_tail (s : ConjectureData) :
    ∀ st k, stack_chain s (k :: st) → stack_chain s st := by
  intro st k h
  match st, h with
  | [], _ => trivial
  | p :: rest, ⟨_, _, _, hrest⟩ => exact hrest

/-- Transfer a `stack_chain` to a state that agrees on all starts and on the
children of every non-top entry. -/
theorem stack_chain_of (s s' : ConjectureData) :
    ∀ st, stack_chain s st →
    (∀ j ∈ st, (exAt s' j).start = (exAt s j).start) →
    (∀ j ∈ st.tail, (exAt s' j).children = (exAt s j).children) →
    stack_chain s' st := by
  intro st
  induction st with
  | nil => intro _ _ _; trivial
  | cons k rest ih =>
    intro h hs hc
    match rest, h with
    | [], _ => trivial
    | p :: rest', ⟨hpk, hlast, hsle, hrest⟩ =>
      refine ⟨hpk, ?_, ?_, ?_⟩
      · rw [hc p (List.mem_cons_self _ _)]
        exact hlast
      · rw [hs p (List.mem_cons_of_mem _ (List.mem_cons_self _ _)),
          hs k (List.mem_cons_self _ _)]
        exact hsle
      · exact ih hrest
          (fun j hj => hs j (List.mem_cons_of_mem _ hj))
          (fun j hj => hc j (List.mem_cons_of_mem _ hj))

/-- Transfer `stack_triv` to a state with the same blocks that agrees on the
trivial flags and starts of the stack entries. -/
theorem stack_triv_of (s s' : ConjectureData) (hb : s'.blocks = s.blocks) :
    ∀ st ub, stack_triv s ub st →
    (∀ j ∈ st, (exAt s' j).trivial = (exAt s j).trivial ∧
      (exAt s' j).start = (exAt s j).start) →
    stack_triv s' ub st := by
  intro st
  induction st with
  | nil => intro _ _ _; trivial
  | cons k rest ih =>
    intro ub h he
    obtain ⟨hhead, htail⟩ := h
    obtain ⟨htr, hst⟩ := he k (List.mem_cons_self _ _)
    refine ⟨?_, ?_⟩
    · rw [htr, hst, hb]
      exact hhead
    · rw [hst]
      exact ih (exAt s k).start htail
        (fun j hj => he j (List.mem_cons_of_mem _ hj))

/-- Appending a block that is either trivial or stops beyond the bound (and
beyond every deeper bound, the starts being dominated by `ub`) preserves
`stack_triv`. -/
theorem stack_triv_append (s s' : ConjectureData) (B : Block)
    (hb : s'.blocks = s.blocks ++ [B]) :
    ∀ st ub, stack_triv s ub st → stack_chain s st →
    (∀ j ∈ st, (exAt s' j).trivial = (exAt s j).trivial ∧
      (exAt s' j).start = (exAt s j).start) →
    (∀ j ∈ st, (exAt s j).start ≤ ub) →
    (B.trivial = true ∨ ub < B.stop) →
    stack_triv s' ub st := by
  intro st
  induction st with
  | nil => intro _ _ _ _ _ _; trivial
  | cons k rest ih =>
    intro ub h hch he hle hB
    obtain ⟨hhead, htail⟩ := h
    obtain ⟨htr, hst⟩ := he k (List.mem_cons_self _ _)
    have hkub : (exAt s k).start ≤ ub := hle k (List.mem_cons_self _ _)
    refine ⟨?_, ?_⟩
    · rw [htr, hst, hb]
      rw [hhead]
      constructor
      · intro hall b hbmem hb1 hb2
        rcases List.mem_append.1 hbmem with hbm | hbm
        · exact hall b hbm hb1 hb2
        · rcases List.mem_singleton.1 hbm with rfl
          rcases hB with hBt | hBs
          · exact hBt
          · omega
      · intro hall b hbmem hb1 hb2
        exact hall b (List.mem_append.2 (Or.inl hbmem)) hb1 hb2
    · rw [hst]
      refine ih (exAt s k).start htail (stack_chain_tail s rest k hch)
        (fun j hj => he j (List.mem_cons_of_mem _ hj)) ?_ ?_
      · intro j hj
        exact stack_chain_start_le s rest k hch j hj
      · rcases hB with hBt | hBs
        · exact Or.inl hBt
        · exact Or.inr (by omega)

/-- A block of a well-formed record with an empty span is trivial. -/
theorem block_trivial_of_ge (s : ConjectureData) (w : WF s) (b : Block)
    (hb : b ∈ s.blocks) (h : b.stop ≤ b.start) : b.trivial = true := by
  cases htr : b.trivial with
  | true => rfl
  | false =>
    have := w.nt_len b hb htr
    omega

/-- Every child of the open example on top of the stack is closed. -/
theorem children_of_top_closed (s : ConjectureData) (w : WF s) (p : Nat)
    (rest : List Nat) (hst : s.example_stack = p :: rest) :
    ∀ c ∈ (exAt s p).children, ∃ e, (exAt s c).stop = some e := by
  intro c hc
  have hp : p < s.examples.length := w.stack_lt p (by rw [hst]; exact List.mem_cons_self _ _)
  obtain ⟨hpc, hcl⟩ := w.child_mem p hp c hc
  cases hco : (exAt s c).stop with
  | some e => exact ⟨e, rfl⟩
  | none =>
    exfalso
    have hmem : c ∈ s.example_stack := (w.open_iff c hcl).1 hco
    rw [hst] at hmem
    rcases List.mem_cons.1 hmem with rfl | hmem
    · omega
    · have hch := w.chain
      rw [hst] at hch
      have := stack_chain_lt s rest p hch c hmem
      omega

theorem initial_state_eq (m tc : Nat) : initial_state m tc =
    { max_length := m, is_find := false, overdraw := 0,
      block_starts := fun _ => [], blocks := [], buffer := [],
      status := .valid, frozen := false, testcounter := tc,
      interesting_origin := none, max_depth := 0,
      examples := [⟨0, TOP_LABEL, 0, 0, none, true, none, []⟩],
      example_stack := [0], has_discards := false } := rfl

theorem WF_initial (m tc : Nat) : WF (initial_state m tc) := by
  rw [initial_state_eq]
  refine ⟨?_, ?_, ?_, ?_, ?_, ?_, ?_, ?_, ?_, ?_, ?_, ?_, ?_, ?_, ?_⟩
  · intro i hi
    simp only [List.length_cons, List.length_nil] at hi
    have : i = 0 := by omega
    subst this
    rfl
  · intro j hj
    simp at hj
  · intro i hi
    simp only [List.length_cons, List.length_nil] at hi
    have : i = 0 := by omega
    subst this
    simp [exAt]
  · intro k hk
    simp at hk
    simp [hk]
  · trivial
  · intro i hi
    simp only [List.length_cons, List.length_nil] at hi
    have : i = 0 := by omega
    subst this
    simp [exAt, endB]
  · intro i hi c hc
    simp only [List.length_cons, List.length_nil] at hi
    have : i = 0 := by omega
    subst this
    simp [exAt] at hc
  · intro i hi c hc
    simp only [List.length_cons, List.length_nil] at hi
    have : i = 0 := by omega
    subst this
    simp [exAt] at hc
  · intro i hi
    simp only [List.length_cons, List.length_nil] at hi
    have : i = 0 := by omega
    subst this
    simp [exAt]
  · intro i hi e he
    simp only [List.length_cons, List.length_nil] at hi
    have : i = 0 := by omega
    subst this
    simp [exAt] at he
  · refine ⟨?_, trivial⟩
    simp [exAt]
  · intro b hb
    simp at hb
  · intro k hk b hb
    simp at hb
  · rfl
  · intro h
    simp at h

theorem chain'_transfer {A : Type} (R S : A → A → Prop) :
    ∀ l : List A, (∀ a ∈ l, ∀ b ∈ l, R a b → S a b) → List.Chain' R l →
    List.Chain' S l := by
  intro l
  induction l with
  | nil => intro _ _; exact List.chain'_nil
  | cons a t ih =>
    intro h hc
    match t, hc with
    | [], _ => exact List.chain'_singleton a
    | b :: t', hc =>
      obtain ⟨hab, htl⟩ := List.chain'_cons.1 hc
      refine List.chain'_cons.2 ⟨?_, ?_⟩
      · exact h a (List.mem_cons_self _ _) b
          (List.mem_cons_of_mem _ (List.mem_cons_self _ _)) hab
      · exact ih (fun x hx y hy => h x (List.mem_cons_of_mem _ hx)
          y (List.mem_cons_of_mem _ hy)) htl

/-- The child-adjacency relation of `WF.child_chain` at state `s`. -/
def childRel (s : ConjectureData) (c1 c2 : Nat) : Prop :=
  ∃ e1, (exAt s c1).stop = some e1 ∧ e1 ≤ (exAt s c2).start

theorem WF_append_open_nil (s : ConjectureData) (w : WF s) (d lab M : Nat)
    (hfz : s.frozen = false) (hst : s.example_stack = []) :
    WF { s with
      examples := s.examples ++
        [{ depth := d, label := lab, index := s.examples.length,
           start := s.buffer.length, stop := none, trivial := true,
           discarded := none, children := [] }],
      example_stack := [s.examples.length], max_depth := M } := by
  set i := s.examples.length with hidef
  set fr : Example :=
    { depth := d, label := lab, index := i, start := s.buffer.length,
      stop := none, trivial := true, discarded := none, children := [] }
    with hfr
  set s' : ConjectureData :=
    ({ s with
      examples := s.examples ++ [fr],
      example_stack := [i],
      max_depth := M }) with hs'
  have hall_stop_le : ∀ b ∈ s.blocks, b.stop ≤ s.buffer.length :=
    fun b hb => ((partitions_mem 0 s.blocks s.buffer.length w.part).2 b hb).2.2
  have hex_lt : ∀ j, j < s.examples.length → exAt s' j = exAt s j := by
    intro j hj
    show (s.examples ++ [fr]).getD j default = _
    exact List.getD_append _ _ _ _ hj
  have hex_i : exAt s' i = fr := by
    show (s.examples ++ [fr]).getD i default = fr
    exact getD_append_self _ _ _
  have hlen' : s'.examples.length = s.examples.length + 1 := by
    show (s.examples ++ [fr]).length = _
    simp
  have hclosed : ∀ j, j < s.examples.length → ∃ e, (exAt s j).stop = some e := by
    intro j hj
    cases hco : (exAt s j).stop with
    | some e => exact ⟨e, rfl⟩
    | none =>
      exfalso
      have := (w.open_iff j hj).1 hco
      rw [hst] at this
      cases this
  refine ⟨?_, ?_, ?_, ?_, ?_, ?_, ?_, ?_, ?_, ?_, ?_, ?_, ?_, ?_, ?_⟩
  · intro j hj
    rw [hlen'] at hj
    by_cases hj' : j < s.examples.length
    · rw [hex_lt j hj']
      exact w.idx_ex j hj'
    · have hji : j = i := by omega
      subst hji
      rw [hex_i]
  · exact w.idx_blk
  · intro j hj
    rw [hlen'] at hj
    by_cases hj' : j < s.examples.length
    · rw [hex_lt j hj']
      obtain ⟨e, he⟩ := hclosed j hj'
      rw [he]
      constructor
      · intro h; cases h
      · intro h
        exfalso
        have hji : j = i := by
          have : j ∈ ([i] : List Nat) := h
          simpa using this
        omega
    · have hji : j = i := by omega
      subst hji
      rw [hex_i]
      simp
  · intro k hk
    have : k = i := by simpa using hk
    rw [hlen', this]
    omega
  · trivial
  · intro j hj
    rw [hlen'] at hj
    by_cases hj' : j < s.examples.length
    · rw [hex_lt j hj']
      exact w.span j hj'
    · have hji : j = i := by omega
      subst hji
      rw [hex_i]
      exact ⟨Nat.le_refl _, Nat.le_refl _⟩
  · intro j hj c hc
    rw [hlen'] at hj
    by_cases hj' : j < s.examples.length
    · rw [hex_lt j hj'] at hc
      obtain ⟨h1, h2⟩ := w.child_mem j hj' c hc
      exact ⟨h1, by omega⟩
    · have hji : j = i := by omega
      subst hji
      rw [hex_i] at hc
      cases hc
  · intro j hj c hc
    rw [hlen'] at hj
    by_cases hj' : j < s.examples.length
    · rw [hex_lt j hj'] at hc ⊢
      have hcl := (w.child_mem j hj' c hc).2
      rw [hex_lt c hcl]
      exact w.child_span j hj' c hc
    · have hji : j = i := by omega
      subst hji
      rw [hex_i] at hc
      cases hc
  · intro j hj
    rw [hlen'] at hj
    by_cases hj' : j < s.examples.length
    · rw [hex_lt j hj']
      refine chain'_transfer _ _ _ ?_ (w.child_chain j hj')
      intro a ha b hb hr
      obtain ⟨e1, h1, h2⟩ := hr
      have hal := (w.child_mem j hj' a ha).2
      have hbl := (w.child_mem j hj' b hb).2
      exact ⟨e1, by rw [hex_lt a hal]; exact h1, by rw [hex_lt b hbl]; exact h2⟩
    · have hji : j = i := by omega
      subst hji
      rw [hex_i]
      exact List.chain'_nil
  · intro j hj e he
    rw [hlen'] at hj
    by_cases hj' : j < s.examples.length
    · rw [hex_lt j hj'] at he ⊢
      exact w.closed_triv j hj' e he
    · have hji : j = i := by omega
      subst hji
      rw [hex_i] at he
      cases he
  · refine ⟨?_, trivial⟩
    rw [hex_i]
    refine iff_of_true rfl ?_
    intro b hb h1 h2
    have h1' : s.buffer.length ≤ b.start := h1
    have h2' : b.stop ≤ s.buffer.length := h2
    exact block_trivial_of_ge s w b hb (by omega)
  · exact w.nt_len
  · intro k hk b hb
    have hki : k = i := by simpa using hk
    subst hki
    rw [hex_i]
    exact Or.inl (hall_stop_le b hb)
  · exact w.part
  · intro h
    rw [show s'.frozen = s.frozen from rfl, hfz] at h
    cases h

theorem WF_append_open_cons (s : ConjectureData) (w : WF s) (d lab M p : Nat)
    (rest : List Nat) (hfz : s.frozen = false)
    (hst : s.example_stack = p :: rest) :
    WF { s with
      examples := (s.examples ++
        [({ depth := d, label := lab, index := s.examples.length,
            start := s.buffer.length, stop := none, trivial := true,
            discarded := none, children := [] } : Example)]).set p
        ({ exAt s p with
          children := (exAt s p).children ++ [s.examples.length] } : Example),
      example_stack := s.examples.length :: p :: rest,
      max_depth := M } := by
  set i := s.examples.length with hidef
  set fr : Example :=
    { depth := d, label := lab, index := i, start := s.buffer.length,
      stop := none, trivial := true, discarded := none, children := [] }
    with hfr
  set pe1 : Example :=
    ({ exAt s p with children := (exAt s p).children ++ [i] }) with hpe1
  set s' : ConjectureData :=
    ({ s with
      examples := (s.examples ++ [fr]).set p pe1,
      example_stack := i :: p :: rest,
      max_depth := M }) with hs'
  have hall_stop_le : ∀ b ∈ s.blocks, b.stop ≤ s.buffer.length :=
    fun b hb => ((partitions_mem 0 s.blocks s.buffer.length w.part).2 b hb).2.2
  have hpmem : p ∈ s.example_stack := by rw [hst]; exact List.mem_cons_self _ _
  have hpl : p < s.examples.length := w.stack_lt p hpmem
  have hpi : p ≠ i := Nat.ne_of_lt hpl
  have hchold : stack_chain s (p :: rest) := by rw [← hst]; exact w.chain
  have hrest_lt : ∀ j ∈ rest, j < p := stack_chain_lt s rest p hchold
  have hstold : ∀ k ∈ p :: rest, k < s.examples.length := by
    intro k hk
    exact w.stack_lt k (by rw [hst]; exact hk)
  have hpopen : (exAt s p).stop = none := (w.open_iff p hpl).2 hpmem
  have hpstart : (exAt s p).start ≤ s.buffer.length := by
    have h1 := (w.span p hpl).1
    have h2 := (w.span p hpl).2
    omega
  have hex_i : exAt s' i = fr := by
    show ((s.examples ++ [fr]).set p pe1).getD i default = fr
    rw [getD_set_ne hpi, getD_append_self]
  have hex_p : exAt s' p = pe1 := by
    show ((s.examples ++ [fr]).set p pe1).getD p default = pe1
    exact getD_set_self (by simp; omega) _ _
  have hex_o : ∀ j, j < s.examples.length → j ≠ p → exAt s' j = exAt s j := by
    intro j hj hjp
    show ((s.examples ++ [fr]).set p pe1).getD j default = _
    rw [getD_set_ne (fun h => hjp h.symm)]
    exact List.getD_append _ _ _ _ hj
  have hfields : ∀ j, j < s.examples.length →
      (exAt s' j).start = (exAt s j).start ∧
      (exAt s' j).stop = (exAt s j).stop ∧
      (exAt s' j).trivial = (exAt s j).trivial ∧
      (exAt s' j).index = (exAt s j).index := by
    intro j hj
    by_cases hjp : j = p
    · subst hjp
      rw [hex_p]
      exact ⟨rfl, rfl, rfl, rfl⟩
    · rw [hex_o j hj hjp]
      exact ⟨rfl, rfl, rfl, rfl⟩
  have hlen' : s'.examples.length = s.examples.length + 1 := by
    show ((s.examples ++ [fr]).set p pe1).length = _
    simp
  have hendB_eq : ∀ j, j < s.examples.length →
      endB s' (exAt s' j) = endB s (exAt s j) := by
    intro j hj
    rw [endB, endB, (hfields j hj).2.1]
  refine ⟨?_, ?_, ?_, ?_, ?_, ?_, ?_, ?_, ?_, ?_, ?_, ?_, ?_, ?_, ?_⟩
  · intro j hj
    rw [hlen'] at hj
    by_cases hj' : j < s.examples.length
    · rw [(hfields j hj').2.2.2]
      exact w.idx_ex j hj'
    · have hji : j = i := by omega
      subst hji
      rw [hex_i]
  · exact w.idx_blk
  · intro j hj
    rw [hlen'] at hj
    by_cases hj' : j < s.examples.length
    · rw [(hfields j hj').2.1]
      constructor
      · intro h
        have := (w.open_iff j hj').1 h
        rw [hst] at this
        exact List.mem_cons_of_mem _ this
      · intro h
        rcases List.mem_cons.1 h with hji | h
        · omega
        · exact (w.open_iff j hj').2 (by rw [hst]; exact h)
    · have hji : j = i := by omega
      subst hji
      rw [hex_i]
      simp
  · intro k hk
    rw [hlen']
    rcases List.mem_cons.1 hk with rfl | hk
    · omega
    · have := hstold k hk
      omega
  · refine ⟨hpl, ?_, ?_, ?_⟩
    · rw [hex_p, hpe1]
      simp [List.getLast?_append]
    · rw [hex_p, hex_i]
      exact hpstart
    · refine stack_chain_of s s' _ hchold ?_ ?_
      · intro j hj
        exact (hfields j (hstold j hj)).1
      · intro j hj
        have hjp : j ≠ p := Nat.ne_of_lt (hrest_lt j hj)
        rw [hex_o j (hstold j (List.mem_cons_of_mem _ hj)) hjp]
  · intro j hj
    rw [hlen'] at hj
    by_cases hj' : j < s.examples.length
    · rw [(hfields j hj').1, hendB_eq j hj']
      exact w.span j hj'
    · have hji : j = i := by omega
      subst hji
      rw [hex_i]
      exact ⟨Nat.le_refl _, Nat.le_refl _⟩
  · intro j hj c hc
    rw [hlen'] at hj
    by_cases hj' : j < s.examples.length
    · by_cases hjp : j = p
      · rw [hjp] at hc ⊢
        rw [hex_p] at hc
        rcases List.mem_append.1 hc with hc | hc
        · obtain ⟨h1, h2⟩ := w.child_mem p hpl c hc
          exact ⟨h1, by omega⟩
        · rcases List.mem_singleton.1 hc with rfl
          exact ⟨hpl, by omega⟩
      · rw [hex_o j hj' hjp] at hc
        obtain ⟨h1, h2⟩ := w.child_mem j hj' c hc
        exact ⟨h1, by omega⟩
    · have hji : j = i := by omega
      subst hji
      rw [hex_i] at hc
      cases hc
  · intro j hj c hc
    rw [hlen'] at hj
    by_cases hj' : j < s.examples.length
    · by_cases hjp : j = p
      · rw [hjp] at hc ⊢
        rw [hex_p] at hc ⊢
        rcases List.mem_append.1 hc with hc | hc
        · have hcl := (w.child_mem p hpl c hc).2
          obtain ⟨g1, g2, g3⟩ := w.child_span p hpl c hc
          refine ⟨?_, ?_, ?_⟩
          · rw [(hfields c hcl).1]
            exact g1
          · rw [hendB_eq c hcl]
            show endB s (exAt s c) ≤ endB s' pe1
            have : endB s' pe1 = s.buffer.length := by
              rw [endB, hpe1]
              show (exAt s p).stop.getD s'.buffer.length = _
              rw [hpopen]
              rfl
            rw [this]
            have := (w.span c hcl).2
            omega
          · intro _
            show pe1.stop = none
            rw [hpe1]
            exact hpopen
        · rcases List.mem_singleton.1 hc with rfl
          rw [hex_i]
          refine ⟨hpstart, ?_, ?_⟩
          · show endB s' fr ≤ endB s' pe1
            have h1 : endB s' fr = s.buffer.length := by
              rw [endB, hfr]
              rfl
            have h2 : endB s' pe1 = s.buffer.length := by
              rw [endB, hpe1]
              show (exAt s p).stop.getD s'.buffer.length = _
              rw [hpopen]
              rfl
            omega
          · intro _
            show pe1.stop = none
            rw [hpe1]
            exact hpopen
      · rw [hex_o j hj' hjp] at hc
        have hcl := (w.child_mem j hj' c hc).2
        obtain ⟨g1, g2, g3⟩ := w.child_span j hj' c hc
        rw [hex_o j hj' hjp]
        refine ⟨?_, ?_, ?_⟩
        · rw [(hfields c hcl).1]
          exact g1
        · rw [hendB_eq c hcl]
          show endB s (exAt s c) ≤ endB s (exAt s j)
          exact g2
        · intro hco
          rw [(hfields c hcl).2.1] at hco
          exact g3 hco
    · have hji : j = i := by omega
      subst hji
      rw [hex_i] at hc
      cases hc
  · intro j hj
    rw [hlen'] at hj
    by_cases hj' : j < s.examples.length
    · by_cases hjp : j = p
      · rw [hjp]
        rw [hex_p, hpe1]
        show List.Chain' _ ((exAt s p).children ++ [i])
        rw [List.chain'_append]
        refine ⟨?_, List.chain'_singleton i, ?_⟩
        · refine chain'_transfer _ _ _ ?_ (w.child_chain p hpl)
          intro a ha b hb hr
          obtain ⟨e1, h1, h2⟩ := hr
          have hal := (w.child_mem p hpl a ha).2
          have hbl := (w.child_mem p hpl b hb).2
          exact ⟨e1, by rw [(hfields a hal).2.1]; exact h1,
            by rw [(hfields b hbl).1]; exact h2⟩
        · intro x hx y hy
          have hxmem : x ∈ (exAt s p).children :=
            List.mem_of_getLast?_eq_some (by simpa using hx)
          obtain ⟨e1, he1⟩ := children_of_top_closed s w p rest hst x hxmem
          have hxl := (w.child_mem p hpl x hxmem).2
          have hyi : i = y := by simpa using hy
          subst hyi
          refine ⟨e1, ?_, ?_⟩
          · rw [(hfields x hxl).2.1]
            exact he1
          · rw [hex_i]
            show e1 ≤ s.buffer.length
            have := (w.span x hxl).2
            rw [endB, he1] at this
            simpa using this
      · rw [hex_o j hj' hjp]
        refine chain'_transfer _ _ _ ?_ (w.child_chain j hj')
        intro a ha b hb hr
        obtain ⟨e1, h1, h2⟩ := hr
        have hal := (w.child_mem j hj' a ha).2
        have hbl := (w.child_mem j hj' b hb).2
        exact ⟨e1, by rw [(hfields a hal).2.1]; exact h1,
          by rw [(hfields b hbl).1]; exact h2⟩
    · have hji : j = i := by omega
      subst hji
      rw [hex_i]
      exact List.chain'_nil
  · intro j hj e he
    rw [hlen'] at hj
    by_cases hj' : j < s.examples.length
    · rw [(hfields j hj').2.1] at he
      rw [(hfields j hj').2.2.1, (hfields j hj').1]
      exact w.closed_triv j hj' e he
    · have hji : j = i := by omega
      subst hji
      rw [hex_i] at he
      cases he
  · refine ⟨?_, ?_⟩
    · rw [hex_i]
      refine iff_of_true rfl ?_
      intro b hb h1 h2
      have h1' : s.buffer.length ≤ b.start := h1
      have h2' : b.stop ≤ s.buffer.length := h2
      exact block_trivial_of_ge s w b hb (by omega)
    · rw [hex_i]
      show stack_triv s' s.buffer.length (p :: rest)
      refine stack_triv_of s s' rfl _ _ ?_ ?_
      · have := w.open_triv
        rw [hst] at this
        exact this
      · intro j hj
        have hjl := hstold j hj
        exact ⟨(hfields j hjl).2.2.1, (hfields j hjl).1⟩
  · exact w.nt_len
  · intro k hk b hb
    rcases List.mem_cons.1 hk with rfl | hk
    · rw [hex_i]
      exact Or.inl (hall_stop_le b hb)
    · rw [(hfields k (hstold k hk)).1]
      exact w.no_cross k (by rw [hst]; exact hk) b hb
  · exact w.part
  · intro h
    rw [show s'.frozen = s.frozen from rfl, hfz] at h
    cases h

theorem WF_start_example (s : ConjectureData) (label : Nat) (w : WF s) :
    WF (start_example s label).1 := by
  by_cases hfz : s.frozen
  · rw [start_example, if_pos hfz]
    exact w
  · have hfz' : s.frozen = false := by simpa using hfz
    cases hst : s.example_stack with
    | nil =>
      have heq : (start_example s label).1 =
          { s with
            examples := s.examples ++
              [({ depth := 0, label := label, index := s.examples.length,
                  start := s.buffer.length, stop := none, trivial := true,
                  discarded := none, children := [] } : Example)],
            example_stack := [s.examples.length],
            max_depth := max s.max_depth 0 } := by
        rw [start_example, if_neg hfz, hst]
        rfl
      rw [heq]
      exact WF_append_open_nil s w 0 label _ hfz' hst
    | cons p rest =>
      have hpl : p < s.examples.length :=
        w.stack_lt p (by rw [hst]; exact List.mem_cons_self _ _)
      have heq : (start_example s label).1 =
          { s with
            examples := (s.examples ++
              [({ depth := (p :: rest).length, label := label,
                  index := s.examples.length, start := s.buffer.length,
                  stop := none, trivial := true, discarded := none,
                  children := [] } : Example)]).set p
              ({ exAt s p with
                children := (exAt s p).children ++ [s.examples.length] } :
                  Example),
            example_stack := s.examples.length :: p :: rest,
            max_depth := max s.max_depth (p :: rest).length } := by
        rw [start_example, if_neg hfz, hst]
        dsimp only
        rw [List.getD_append _ _ _ _ hpl]
        rfl
      rw [heq]
      exact WF_append_open_cons s w (p :: rest).length label _ p rest hfz' hst

/-- Splitting a triviality bound at the start of an open example: blocks
never straddle it (`no_cross`). -/
theorem triv_bound_split (s : ConjectureData) (w : WF s) (k : Nat)
    (hk : k ∈ s.example_stack) (sp L : Nat)
    (hspk : sp ≤ (exAt s k).start) (hkL : (exAt s k).start ≤ L) :
    ((∀ b ∈ s.blocks, sp ≤ b.start → b.stop ≤ L → b.trivial = true) ↔
     (∀ b ∈ s.blocks, sp ≤ b.start → b.stop ≤ (exAt s k).start →
        b.trivial = true) ∧
     (∀ b ∈ s.blocks, (exAt s k).start ≤ b.start → b.stop ≤ L →
        b.trivial = true)) := by
  constructor
  · intro h
    exact ⟨fun b hb h1 h2 => h b hb h1 (by omega),
      fun b hb h1 h2 => h b hb (by omega) h2⟩
  · intro h b hb hb1 hb2
    obtain ⟨h1, h2⟩ := h
    rcases w.no_cross k hk b hb with hcr | hcr
    · exact h1 b hb hb1 hcr
    · exact h2 b hb hcr hb2

/-- Closing the top of the stack without triviality propagation (either the
stack empties, or the closing example was trivial). -/
theorem WF_close_top_nop (s : ConjectureData) (w : WF s) (k : Nat)
    (rest : List Nat) (dv hd : Bool) (hst : s.example_stack = k :: rest)
    (hnp : rest = [] ∨ (exAt s k).trivial = true) :
    WF { s with
      example_stack := rest,
      examples := s.examples.set k
        ({ exAt s k with
          stop := some s.buffer.length,
          discarded := some dv } : Example),
      has_discards := hd } := by
  have hkmem : k ∈ s.example_stack := by rw [hst]; exact List.mem_cons_self _ _
  have hkl : k < s.examples.length := w.stack_lt k hkmem
  have hkopen : (exAt s k).stop = none := (w.open_iff k hkl).2 hkmem
  have hkstart : (exAt s k).start ≤ s.buffer.length := by
    have h1 := (w.span k hkl).1
    have h2 := (w.span k hkl).2
    omega
  have hchold : stack_chain s (k :: rest) := by rw [← hst]; exact w.chain
  have hrest_lt : ∀ j ∈ rest, j < k := stack_chain_lt s rest k hchold
  have hknotin : k ∉ rest := fun h => absurd (hrest_lt k h) (by omega)
  set nk : Example :=
    ({ exAt s k with stop := some s.buffer.length, discarded := some dv } :
      Example) with hnk
  set s' : ConjectureData :=
    ({ s with
      example_stack := rest,
      examples := s.examples.set k nk,
      has_discards := hd }) with hs'
  have hex_k : exAt s' k = nk := by
    show (s.examples.set k nk).getD k default = nk
    exact getD_set_self hkl _ _
  have hex_o : ∀ j, j ≠ k → exAt s' j = exAt s j := by
    intro j hj
    show (s.examples.set k nk).getD j default = _
    rw [getD_set_ne (fun h => hj h.symm)]
    rfl
  have hlen' : s'.examples.length = s.examples.length := by
    show (s.examples.set k nk).length = _
    simp
  have hendB_o : ∀ j, j ≠ k → endB s' (exAt s' j) = endB s (exAt s j) := by
    intro j hj
    rw [hex_o j hj]
    rfl
  have hendB_k : endB s' (exAt s' k) = s.buffer.length := by
    rw [hex_k, endB, hnk]
    rfl
  have hopentr := w.open_triv
  rw [hst] at hopentr
  obtain ⟨hheadK, htailK⟩ := hopentr
  refine ⟨?_, ?_, ?_, ?_, ?_, ?_, ?_, ?_, ?_, ?_, ?_, ?_, ?_, ?_, ?_⟩
  · intro j hj
    rw [hlen'] at hj
    by_cases hjk : j = k
    · subst hjk
      rw [hex_k, hnk]
      exact w.idx_ex j hj
    · rw [hex_o j hjk]
      exact w.idx_ex j hj
  · exact w.idx_blk
  · intro j hj
    rw [hlen'] at hj
    by_cases hjk : j = k
    · subst hjk
      rw [hex_k, hnk]
      show some s.buffer.length = none ↔ j ∈ rest
      constructor
      · intro h; cases h
      · intro h; exact absurd h hknotin
    · rw [hex_o j hjk]
      rw [w.open_iff j hj, hst]
      constructor
      · intro h
        rcases List.mem_cons.1 h with h | h
        · exact absurd h hjk
        · exact h
      · intro h
        exact List.mem_cons_of_mem _ h
  · intro j hj
    rw [hlen']
    exact w.stack_lt j (by rw [hst]; exact List.mem_cons_of_mem _ hj)
  · refine stack_chain_of s s' rest (stack_chain_tail s rest k hchold) ?_ ?_
    · intro j hj
      rw [hex_o j (fun h => absurd (h ▸ hj) hknotin)]
    · intro j hj
      have hjmem : j ∈ rest := List.mem_of_mem_tail hj
      rw [hex_o j (fun h => absurd (h ▸ hjmem) hknotin)]
  · intro j hj
    rw [hlen'] at hj
    by_cases hjk : j = k
    · subst hjk
      rw [hendB_k, hex_k, hnk]
      exact ⟨hkstart, Nat.le_refl _⟩
    · rw [hendB_o j hjk, hex_o j hjk]
      exact w.span j hj
  · intro j hj c hc
    rw [hlen'] at hj
    rw [hlen']
    by_cases hjk : j = k
    · subst hjk
      rw [hex_k] at hc
      exact w.child_mem j hj c hc
    · rw [hex_o j hjk] at hc
      exact w.child_mem j hj c hc
  · intro j hj c hc
    rw [hlen'] at hj
    by_cases hjk : j = k
    · subst hjk
      rw [hex_k] at hc
      replace hc : c ∈ (exAt s j).children := hc
      obtain ⟨g1, g2, g3⟩ := w.child_span j hj c hc
      have hck : c ≠ j := fun h => absurd (h ▸ (w.child_mem j hj c hc).1) (by omega)
      have h2 : endB s (exAt s j) = s.buffer.length := by
        rw [endB, hkopen]
        rfl
      rw [hex_k, hex_o c hck]
      refine ⟨g1, ?_, ?_⟩
      · show endB s' (exAt s c) ≤ endB s' nk
        have h3 : endB s' nk = s.buffer.length := rfl
        have h4 : endB s' (exAt s c) = endB s (exAt s c) := rfl
        rw [h3, h4]
        omega
      · intro h
        obtain ⟨e, he⟩ := children_of_top_closed s w j rest hst c hc
        rw [he] at h
        cases h
    · rw [hex_o j hjk] at hc
      obtain ⟨g1, g2, g3⟩ := w.child_span j hj c hc
      by_cases hck : c = k
      · rw [hck] at hc ⊢
        obtain ⟨g1', g2', g3'⟩ := w.child_span j hj k hc
        rw [hendB_k, hendB_o j hjk, hex_o j hjk, hex_k]
        have h2 : endB s (exAt s k) = s.buffer.length := by
          rw [endB, hkopen]
          rfl
        refine ⟨g1', ?_, ?_⟩
        · omega
        · intro h
          have h3 : nk.stop = some s.buffer.length := rfl
          rw [h3] at h
          cases h
      · rw [hendB_o c hck, hendB_o j hjk, hex_o j hjk, hex_o c hck]
        exact ⟨g1, g2, g3⟩
  · intro j hj
    rw [hlen'] at hj
    have htrans : ∀ a b : Nat,
        (∃ e1, (exAt s a).stop = some e1 ∧ e1 ≤ (exAt s b).start) →
        (∃ e1, (exAt s' a).stop = some e1 ∧ e1 ≤ (exAt s' b).start) := by
      intro a b hr
      obtain ⟨e1, h1, h2⟩ := hr
      by_cases hak : a = k
      · subst hak
        rw [hkopen] at h1
        cases h1
      · refine ⟨e1, by rw [hex_o a hak]; exact h1, ?_⟩
        by_cases hbk : b = k
        · subst hbk
          rw [hex_k, hnk]
          exact h2
        · rw [hex_o b hbk]
          exact h2
    by_cases hjk : j = k
    · subst hjk
      rw [hex_k]
      show List.Chain' _ (exAt s j).children
      exact chain'_transfer _ _ _ (fun a _ b _ => htrans a b) (w.child_chain j hj)
    · rw [hex_o j hjk]
      exact chain'_transfer _ _ _ (fun a _ b _ => htrans a b) (w.child_chain j hj)
  · intro j hj e he
    rw [hlen'] at hj
    by_cases hjk : j = k
    · subst hjk
      rw [hex_k, hnk] at he ⊢
      have he' : e = s.buffer.length := by
        cases he
        rfl
      subst he'
      show (exAt s j).trivial = true ↔ _
      exact hheadK
    · rw [hex_o j hjk] at he ⊢
      exact w.closed_triv j hj e he
  · show stack_triv s' s.buffer.length rest
    match rest, hnp, htailK, hchold with
    | [], _, _, _ => trivial
    | p :: rest', hnp, htailK, hchold =>
      have htriv : (exAt s k).trivial = true := by
        rcases hnp with h | h
        · cases h
        · exact h
      obtain ⟨hheadP, htailP⟩ := htailK
      have hpmem : p ∈ s.example_stack := by
        rw [hst]
        exact List.mem_cons_of_mem _ (List.mem_cons_self _ _)
      have hpk : p ≠ k := by
        have := hrest_lt p (List.mem_cons_self _ _)
        omega
      have hpstart_le : (exAt s p).start ≤ (exAt s k).start := by
        obtain ⟨_, _, h3, _⟩ := hchold
        exact h3
      refine ⟨?_, ?_⟩
      · rw [hex_o p hpk]
        show (exAt s p).trivial = true ↔
          ∀ b ∈ s.blocks, (exAt s p).start ≤ b.start →
            b.stop ≤ s.buffer.length → b.trivial = true
        rw [triv_bound_split s w k hkmem (exAt s p).start s.buffer.length
          hpstart_le hkstart]
        rw [hheadP]
        constructor
        · intro h
          exact ⟨h, hheadK.1 htriv⟩
        · intro h
          exact h.1
      · rw [hex_o p hpk]
        refine stack_triv_of s s' rfl rest' (exAt s p).start htailP ?_
        intro j hj
        have hjk : j ≠ k := by
          have := hrest_lt j (List.mem_cons_of_mem _ hj)
          omega
        rw [hex_o j hjk]
        exact ⟨rfl, rfl⟩
  · exact w.nt_len
  · intro j hj b hb
    have hjk : j ≠ k := fun h => absurd (h ▸ hj) hknotin
    rw [hex_o j hjk]
    exact w.no_cross j (by rw [hst]; exact List.mem_cons_of_mem _ hj) b hb
  · exact w.part
  · intro h
    have : s.frozen = true := h
    rw [w.frozen_stack this] at hst
    cases hst

/-- Closing the top of the stack with triviality propagation: the closing
example was non-trivial, so the new top is marked non-trivial too. -/
theorem WF_close_top_prop (s : ConjectureData) (w : WF s) (k p : Nat)
    (rest' : List Nat) (dv hd : Bool)
    (hst : s.example_stack = k :: p :: rest')
    (hnt : (exAt s k).trivial = false) :
    WF { s with
      example_stack := p :: rest',
      examples := (s.examples.set k
        ({ exAt s k with
          stop := some s.buffer.length,
          discarded := some dv } : Example)).set p
        ({ exAt s p with trivial := false } : Example),
      has_discards := hd } := by
  have hkmem : k ∈ s.example_stack := by rw [hst]; exact List.mem_cons_self _ _
  have hpmem : p ∈ s.example_stack := by
    rw [hst]
    exact List.mem_cons_of_mem _ (List.mem_cons_self _ _)
  have hkl : k < s.examples.length := w.stack_lt k hkmem
  have hpl : p < s.examples.length := w.stack_lt p hpmem
  have hkopen : (exAt s k).stop = none := (w.open_iff k hkl).2 hkmem
  have hpopen : (exAt s p).stop = none := (w.open_iff p hpl).2 hpmem
  have hkstart : (exAt s k).start ≤ s.buffer.length := by
    have h1 := (w.span k hkl).1
    have h2 := (w.span k hkl).2
    omega
  have hchold : stack_chain s (k :: p :: rest') := by
    rw [← hst]
    exact w.chain
  have hrest_lt : ∀ j ∈ p :: rest', j < k :=
    stack_chain_lt s (p :: rest') k hchold
  have hpk : p ≠ k := by
    have := hrest_lt p (List.mem_cons_self _ _)
    omega
  have hknotin : k ∉ p :: rest' := fun h => absurd (hrest_lt k h) (by omega)
  have hrest'_lt : ∀ j ∈ rest', j < p :=
    stack_chain_lt s rest' p (stack_chain_tail s (p :: rest') k hchold)
  have hpnotin : p ∉ rest' := fun h => absurd (hrest'_lt p h) (by omega)
  have hpstart_le : (exAt s p).start ≤ (exAt s k).start := by
    obtain ⟨_, _, h3, _⟩ := hchold
    exact h3
  set nk : Example :=
    ({ exAt s k with stop := some s.buffer.length, discarded := some dv } :
      Example) with hnk
  set np : Example := ({ exAt s p with trivial := false } : Example) with hnp
  set s' : ConjectureData :=
    ({ s with
      example_stack := p :: rest',
      examples := (s.examples.set k nk).set p np,
      has_discards := hd }) with hs'
  have hex_k : exAt s' k = nk := by
    show ((s.examples.set k nk).set p np).getD k default = nk
    rw [getD_set_ne hpk]
    exact getD_set_self hkl _ _
  have hex_p : exAt s' p = np := by
    show ((s.examples.set k nk).set p np).getD p default = np
    exact getD_set_self (by simp [hpl]) _ _
  have hex_o : ∀ j, j ≠ k → j ≠ p → exAt s' j = exAt s j := by
    intro j hjk hjp
    show ((s.examples.set k nk).set p np).getD j default = _
    rw [getD_set_ne (fun h => hjp h.symm), getD_set_ne (fun h => hjk h.symm)]
    rfl
  have hstart_all : ∀ j, (exAt s' j).start = (exAt s j).start := by
    intro j
    by_cases hjk : j = k
    · subst hjk; rw [hex_k]
    · by_cases hjp : j = p
      · subst hjp; rw [hex_p]
      · rw [hex_o j hjk hjp]
  have hstop_o : ∀ j, j ≠ k → (exAt s' j).stop = (exAt s j).stop := by
    intro j hjk
    by_cases hjp : j = p
    · subst hjp; rw [hex_p]
    · rw [hex_o j hjk hjp]
  have htriv_o : ∀ j, j ≠ k → j ≠ p → (exAt s' j).trivial = (exAt s j).trivial := by
    intro j hjk hjp
    rw [hex_o j hjk hjp]
  have hchildren_all : ∀ j, (exAt s' j).children = (exAt s j).children := by
    intro j
    by_cases hjk : j = k
    · subst hjk; rw [hex_k]
    · by_cases hjp : j = p
      · subst hjp; rw [hex_p]
      · rw [hex_o j hjk hjp]
  have hindex_all : ∀ j, (exAt s' j).index = (exAt s j).index := by
    intro j
    by_cases hjk : j = k
    · subst hjk; rw [hex_k]
    · by_cases hjp : j = p
      · subst hjp; rw [hex_p]
      · rw [hex_o j hjk hjp]
  have hlen' : s'.examples.length = s.examples.length := by
    show ((s.examples.set k nk).set p np).length = _
    simp
  have hendB_o : ∀ j, j ≠ k → endB s' (exAt s' j) = endB s (exAt s j) := by
    intro j hjk
    rw [endB, endB, hstop_o j hjk]
  have hendB_k : endB s' (exAt s' k) = s.buffer.length := by
    rw [hex_k, endB, hnk]
    rfl
  have hopentr := w.open_triv
  rw [hst] at hopentr
  obtain ⟨hheadK, hheadP, htailP⟩ := hopentr
  have htrivk_eq : (exAt s' k).trivial = (exAt s k).trivial := by
    rw [hex_k]
  refine ⟨?_, ?_, ?_, ?_, ?_, ?_, ?_, ?_, ?_, ?_, ?_, ?_, ?_, ?_, ?_⟩
  · intro j hj
    rw [hlen'] at hj
    rw [hindex_all j]
    exact w.idx_ex j hj
  · exact w.idx_blk
  · intro j hj
    rw [hlen'] at hj
    by_cases hjk : j = k
    · subst hjk
      rw [hex_k, hnk]
      show some s.buffer.length = none ↔ j ∈ p :: rest'
      constructor
      · intro h; cases h
      · intro h; exact absurd h hknotin
    · rw [hstop_o j hjk]
      rw [w.open_iff j hj, hst]
      constructor
      · intro h
        rcases List.mem_cons.1 h with h | h
        · exact absurd h hjk
        · exact h
      · intro h
        exact List.mem_cons_of_mem _ h
  · intro j hj
    rw [hlen']
    exact w.stack_lt j (by rw [hst]; exact List.mem_cons_of_mem _ hj)
  · refine stack_chain_of s s' (p :: rest')
      (stack_chain_tail s (p :: rest') k hchold) ?_ ?_
    · intro j _
      exact hstart_all j
    · intro j _
      exact hchildren_all j
  · intro j hj
    rw [hlen'] at hj
    by_cases hjk : j = k
    · subst hjk
      rw [hendB_k, hstart_all j]
      exact ⟨hkstart, Nat.le_refl _⟩
    · rw [hendB_o j hjk, hstart_all j]
      exact w.span j hj
  · intro j hj c hc
    rw [hlen'] at hj
    rw [hlen']
    rw [hchildren_all j] at hc
    exact w.child_mem j hj c hc
  · intro j hj c hc
    rw [hlen'] at hj
    rw [hchildren_all j] at hc
    obtain ⟨g1, g2, g3⟩ := w.child_span j hj c hc
    have hcl := (w.child_mem j hj c hc).2
    by_cases hjk : j = k
    · subst hjk
      have hck : c ≠ j := fun h => absurd (h ▸ (w.child_mem j hj c hc).1) (by omega)
      have h2 : endB s (exAt s j) = s.buffer.length := by
        rw [endB, hkopen]
        rfl
      refine ⟨?_, ?_, ?_⟩
      · rw [hstart_all j, hstart_all c]
        exact g1
      · rw [hendB_o c hck, hendB_k]
        omega
      · intro h
        obtain ⟨e, he⟩ := children_of_top_closed s w j (p :: rest') hst c hc
        rw [hstop_o c hck, he] at h
        cases h
    · by_cases hck : c = k
      · rw [hck] at hc ⊢
        obtain ⟨g1', g2', g3'⟩ := w.child_span j hj k hc
        have h2 : endB s (exAt s k) = s.buffer.length := by
          rw [endB, hkopen]
          rfl
        refine ⟨?_, ?_, ?_⟩
        · rw [hstart_all j, hstart_all k]
          exact g1'
        · rw [hendB_k, hendB_o j hjk]
          omega
        · intro h
          rw [hex_k] at h
          have h3 : nk.stop = some s.buffer.length := rfl
          rw [h3] at h
          cases h
      · refine ⟨?_, ?_, ?_⟩
        · rw [hstart_all j, hstart_all c]
          exact g1
        · rw [hendB_o c hck, hendB_o j hjk]
          exact g2
        · intro h
          rw [hstop_o c hck] at h
          rw [hstop_o j hjk]
          exact g3 h
  · intro j hj
    rw [hlen'] at hj
    rw [hchildren_all j]
    refine chain'_transfer _ _ _ ?_ (w.child_chain j hj)
    intro a _ b _ hr
    obtain ⟨e1, h1, h2⟩ := hr
    by_cases hak : a = k
    · subst hak
      rw [hkopen] at h1
      cases h1
    · exact ⟨e1, by rw [hstop_o a hak]; exact h1,
        by rw [hstart_all b]; exact h2⟩
  · intro j hj e he
    rw [hlen'] at hj
    by_cases hjk : j = k
    · subst hjk
      rw [hex_k] at he
      have he' : e = s.buffer.length := by
        have h3 : nk.stop = some s.buffer.length := rfl
        rw [h3] at he
        cases he
        rfl
      subst he'
      rw [htrivk_eq, hstart_all j]
      exact hheadK
    · by_cases hjp : j = p
      · subst hjp
        rw [hstop_o j hjk, hpopen] at he
        cases he
      · rw [htriv_o j hjk hjp, hstart_all j]
        rw [hstop_o j hjk] at he
        exact w.closed_triv j hj e he
  · show stack_triv s' s.buffer.length (p :: rest')
    refine ⟨?_, ?_⟩
    · rw [hex_p]
      have hfalse : np.trivial = false := rfl
      rw [hfalse]
      refine iff_of_false (by simp) ?_
      intro hall
      have hLk : ¬ ∀ b ∈ s.blocks, (exAt s k).start ≤ b.start →
          b.stop ≤ s.buffer.length → b.trivial = true := by
        intro hx
        rw [← hheadK] at hx
        rw [hx] at hnt
        cases hnt
      apply hLk
      intro b hb h1 h2
      have hmem' : b ∈ s'.blocks := hb
      have : np.start = (exAt s p).start := rfl
      exact hall b hmem' (by rw [this]; omega) h2
    · rw [hex_p]
      have : np.start = (exAt s p).start := rfl
      rw [this]
      refine stack_triv_of s s' rfl rest' (exAt s p).start htailP ?_
      intro j hj
      have hjk : j ≠ k := by
        have := hrest_lt j (List.mem_cons_of_mem _ hj)
        omega
      have hjp : j ≠ p := by
        have := hrest'_lt j hj
        omega
      rw [hex_o j hjk hjp]
      exact ⟨rfl, rfl⟩
  · exact w.nt_len
  · intro j hj b hb
    rw [hstart_all j]
    exact w.no_cross j (by rw [hst]; exact List.mem_cons_of_mem _ hj) b hb
  · exact w.part
  · intro h
    have : s.frozen = true := h
    rw [w.frozen_stack this] at hst
    cases hst

theorem WF_stop_example (s : ConjectureData) (d : Bool) (w : WF s) :
    WF (stop_example s d).1 := by
  by_cases hfz : s.frozen
  · rw [stop_example, if_pos hfz]
    exact w
  · cases hst : s.example_stack with
    | nil =>
      rw [stop_example, if_neg hfz, hst]
      exact w
    | cons k rest =>
      have hkl : k < s.examples.length :=
        w.stack_lt k (by rw [hst]; exact List.mem_cons_self _ _)
      cases rest with
      | nil =>
        have heq : (stop_example s d).1 =
            { s with
              example_stack := [],
              examples := s.examples.set k
                ({ exAt s k with
                  stop := some s.buffer.length,
                  discarded := some (if s.buffer.length = (exAt s k).start
                    then false else d) } : Example),
              has_discards := s.has_discards ||
                (if s.buffer.length = (exAt s k).start then false else d) } := by
          rw [stop_example, if_neg hfz, hst]
          dsimp only
          rw [if_pos hkl]
          dsimp only
          rw [getD_set_self hkl, List.set_set]
          rfl
        rw [heq]
        exact WF_close_top_nop s w k [] _ _ hst (Or.inl rfl)
      | cons p rest' =>
        have hchain : stack_chain s (k :: p :: rest') := by
          rw [← hst]
          exact w.chain
        have hpk : p ≠ k := by
          have := stack_chain_lt s (p :: rest') k hchain p
            (List.mem_cons_self _ _)
          omega
        by_cases htr : (exAt s k).trivial = true
        · have heq : (stop_example s d).1 =
              { s with
                example_stack := p :: rest',
                examples := s.examples.set k
                  ({ exAt s k with
                    stop := some s.buffer.length,
                    discarded := some (if s.buffer.length = (exAt s k).start
                      then false else d) } : Example),
                has_discards := s.has_discards ||
                  (if s.buffer.length = (exAt s k).start then false else d) } := by
            rw [stop_example, if_neg hfz, hst]
            dsimp only
            rw [if_pos hkl]
            dsimp only
            have htrG : (s.examples.getD k default).trivial = true := htr
            rw [if_pos htrG]
            rw [getD_set_self hkl, List.set_set]
            rfl
          rw [heq]
          exact WF_close_top_nop s w k (p :: rest') _ _ hst (Or.inr htr)
        · have htr' : (exAt s k).trivial = false := by
            cases h : (exAt s k).trivial
            · rfl
            · exact absurd h htr
          have heq : (stop_example s d).1 =
              { s with
                example_stack := p :: rest',
                examples := (s.examples.set k
                  ({ exAt s k with
                    stop := some s.buffer.length,
                    discarded := some (if s.buffer.length = (exAt s k).start
                      then false else d) } : Example)).set p
                  ({ exAt s p with trivial := false } : Example),
                has_discards := s.has_discards ||
                  (if s.buffer.length = (exAt s k).start then false else d) } := by
            rw [stop_example, if_neg hfz, hst]
            dsimp only
            rw [if_pos hkl]
            dsimp only
            have hgd : (s.examples.getD k default).trivial = false := htr'
            rw [if_neg (by rw [hgd]; simp : ¬ (s.examples.getD k default).trivial = true)]
            rw [getD_set_ne hpk]
            rw [getD_set_ne (fun h => hpk h.symm), getD_set_self hkl]
            rw [List.set_comm _ _ _ hpk, List.set_set]
            rfl
          rw [heq]
          exact WF_close_top_prop s w k p rest' _ _ hst htr'

theorem stop_example_pop (s : ConjectureData) (d : Bool) (hfz : s.frozen = false)
    (k : Nat) (rest : List Nat) (hst : s.example_stack = k :: rest) :
    (stop_example s d).1.example_stack = rest ∧
      (stop_example s d).1.frozen = false := by
  rw [stop_example, if_neg (by rw [hfz]; simp), hst]
  dsimp only
  by_cases hk : k < s.examples.length
  · rw [if_pos hk]
    exact ⟨rfl, hfz⟩
  · rw [if_neg hk]
    exact ⟨rfl, hfz⟩

theorem WF_close_stack (fuel : Nat) : ∀ (s : ConjectureData), WF s →
    WF (close_stack fuel s) := by
  induction fuel with
  | zero => intro s w; exact w
  | succ f ih =>
    intro s w
    simp only [close_stack]
    cases hst : s.example_stack with
    | nil => exact w
    | cons k rest => exact ih _ (WF_stop_example s false w)

theorem close_stack_empties (fuel : Nat) : ∀ (s : ConjectureData),
    s.frozen = false → s.example_stack.length ≤ fuel →
    (close_stack fuel s).example_stack = [] ∧
      (close_stack fuel s).frozen = false := by
  induction fuel with
  | zero =>
    intro s hfz hlen
    have h0 : s.example_stack = [] :=
      List.eq_nil_of_length_eq_zero (Nat.le_zero.mp hlen)
    exact ⟨h0, hfz⟩
  | succ f ih =>
    intro s hfz hlen
    simp only [close_stack]
    cases hst : s.example_stack with
    | nil => exact ⟨hst, hfz⟩
    | cons k rest =>
      obtain ⟨h1, h2⟩ := stop_example_pop s false hfz k rest hst
      refine ih _ h2 ?_
      rw [h1]
      rw [hst] at hlen
      simpa using Nat.le_of_succ_le_succ hlen

theorem WF_freeze (s : ConjectureData) (w : WF s) : WF (freeze s) := by
  rw [freeze]
  by_cases hfz : s.frozen = true
  · rw [if_pos hfz]
    exact w
  · rw [if_neg hfz]
    have hfz' : s.frozen = false := by
      cases h : s.frozen
      · rfl
      · exact absurd h hfz
    have wc : WF (close_stack s.example_stack.length s) :=
      WF_close_stack _ s w
    have hemp := close_stack_empties s.example_stack.length s hfz' (le_refl _)
    have hstk : ({ close_stack s.example_stack.length s with
        frozen := true } : ConjectureData).example_stack = [] := hemp.1
    exact
      { idx_ex := wc.idx_ex, idx_blk := wc.idx_blk, open_iff := wc.open_iff,
        stack_lt := wc.stack_lt, chain := by rw [hstk]; trivial,
        span := wc.span,
        child_mem := wc.child_mem, child_span := wc.child_span,
        child_chain := wc.child_chain, closed_triv := wc.closed_triv,
        open_triv := by rw [hstk]; trivial, nt_len := wc.nt_len,
        no_cross := wc.no_cross, part := wc.part,
        frozen_stack := fun _ => hemp.1 }

theorem WF_record_mut (t : ConjectureData) (w : WF t) (k : Nat)
    (rest : List Nat) (buf : List Nat) (B : Block) (nb : Nat)
    (hfz : t.frozen = false)
    (hst : t.example_stack = k :: rest)
    (hkstart : (exAt t k).start = t.buffer.length)
    (hBs : B.start = t.buffer.length)
    (hBe : B.stop = t.buffer.length + buf.length)
    (hBi : B.index = t.blocks.length)
    (hnt : B.trivial = false → 0 < buf.length) :
    WF { t with
      examples := t.examples.set k
        ({ exAt t k with trivial := B.trivial } : Example),
      blocks := t.blocks ++ [B],
      block_starts := fun m =>
        if m = nb then t.block_starts m ++ [B.start] else t.block_starts m,
      buffer := t.buffer ++ buf } := by
  have hkmem : k ∈ t.example_stack := by
    rw [hst]
    exact List.mem_cons_self _ _
  have hkl : k < t.examples.length := w.stack_lt k hkmem
  have hkstop : (exAt t k).stop = none := (w.open_iff k hkl).2 hkmem
  set t2 : ConjectureData :=
    ({ t with
      examples := t.examples.set k
        ({ exAt t k with trivial := B.trivial } : Example),
      blocks := t.blocks ++ [B],
      block_starts := fun m =>
        if m = nb then t.block_starts m ++ [B.start] else t.block_starts m,
      buffer := t.buffer ++ buf }) with ht2
  have hlen2 : t2.examples.length = t.examples.length := by
    show (t.examples.set k _).length = _
    simp
  have hbuf2 : t2.buffer.length = t.buffer.length + buf.length := by
    show (t.buffer ++ buf).length = _
    simp
  have hb2 : t2.blocks = t.blocks ++ [B] := rfl
  have hstk2 : t2.example_stack = t.example_stack := rfl
  have hex_k : exAt t2 k = { exAt t k with trivial := B.trivial } := by
    show (t.examples.set k _).getD k default = _
    exact getD_set_self hkl _ _
  have hex_ne : ∀ j, j ≠ k → exAt t2 j = exAt t j := by
    intro j hj
    show (t.examples.set k _).getD j default = _
    exact getD_set_ne (fun h => hj h.symm) _ _
  have hstart_all : ∀ j, (exAt t2 j).start = (exAt t j).start := by
    intro j
    by_cases hj : j = k
    · subst hj
      rw [hex_k]
    · rw [hex_ne j hj]
  have hstop_all : ∀ j, (exAt t2 j).stop = (exAt t j).stop := by
    intro j
    by_cases hj : j = k
    · subst hj
      rw [hex_k]
    · rw [hex_ne j hj]
  have hchildren_all : ∀ j, (exAt t2 j).children = (exAt t j).children := by
    intro j
    by_cases hj : j = k
    · subst hj
      rw [hex_k]
    · rw [hex_ne j hj]
  have hendB : ∀ j, endB t2 (exAt t2 j) =
      (exAt t j).stop.getD (t.buffer.length + buf.length) := by
    intro j
    show (exAt t2 j).stop.getD t2.buffer.length = _
    rw [hstop_all j, hbuf2]
  have hstop_le : ∀ b ∈ t.blocks, b.stop ≤ t.buffer.length :=
    fun b hb => ((partitions_mem 0 t.blocks t.buffer.length w.part).2 b hb).2.2
  refine
    { idx_ex := ?_, idx_blk := ?_, open_iff := ?_, stack_lt := ?_,
      chain := ?_, span := ?_, child_mem := ?_, child_span := ?_,
      child_chain := ?_, closed_triv := ?_, open_triv := ?_, nt_len := ?_,
      no_cross := ?_, part := ?_, frozen_stack := ?_ }
  · intro i hi
    rw [hlen2] at hi
    by_cases hik : i = k
    · subst hik
      rw [hex_k]
      show (exAt t i).index = i
      exact w.idx_ex i hi
    · rw [hex_ne i hik]
      exact w.idx_ex i hi
  · intro j hj
    rw [hb2] at hj ⊢
    rw [List.length_append, List.length_singleton] at hj
    by_cases hjl : j < t.blocks.length
    · rw [List.getD_append _ _ _ _ hjl]
      exact w.idx_blk j hjl
    · have hje : j = t.blocks.length := by omega
      subst hje
      rw [getD_append_self]
      exact hBi
  · intro i hi
    rw [hlen2] at hi
    rw [hstop_all i, hstk2]
    exact w.open_iff i hi
  · intro j hj
    have hj' : j ∈ t.example_stack := hj
    rw [hlen2]
    exact w.stack_lt j hj'
  · rw [hstk2]
    exact stack_chain_of t t2 t.example_stack w.chain
      (fun j _ => hstart_all j) (fun j _ => hchildren_all j)
  · intro i hi
    rw [hlen2] at hi
    have h1 := (w.span i hi).1
    have h2 := (w.span i hi).2
    have heB : endB t (exAt t i) = (exAt t i).stop.getD t.buffer.length := rfl
    rw [heB] at h1 h2
    rw [hstart_all i, hendB i, hbuf2]
    cases hs : (exAt t i).stop with
    | none =>
      rw [hs] at h1 h2
      simp only [Option.getD_none] at h1 h2 ⊢
      omega
    | some e =>
      rw [hs] at h1 h2
      simp only [Option.getD_some] at h1 h2 ⊢
      omega
  · intro i hi c hc
    rw [hlen2] at hi
    rw [hchildren_all i] at hc
    have := w.child_mem i hi c hc
    rw [hlen2]
    exact this
  · intro i hi c hc
    rw [hlen2] at hi
    rw [hchildren_all i] at hc
    obtain ⟨hcs1, hcs2, hcs3⟩ := w.child_span i hi c hc
    refine ⟨?_, ?_, ?_⟩
    · rw [hstart_all i, hstart_all c]
      exact hcs1
    · rw [hendB c, hendB i]
      have heBc : endB t (exAt t c) = (exAt t c).stop.getD t.buffer.length := rfl
      have heBi : endB t (exAt t i) = (exAt t i).stop.getD t.buffer.length := rfl
      rw [heBc, heBi] at hcs2
      cases hsc : (exAt t c).stop with
      | none =>
        have hi0 : (exAt t i).stop = none := hcs3 hsc
        rw [hi0]
      | some ec =>
        rw [hsc] at hcs2
        cases hsi : (exAt t i).stop with
        | none =>
          rw [hsi] at hcs2
          simp only [Option.getD_some, Option.getD_none] at hcs2 ⊢
          omega
        | some ei =>
          rw [hsi] at hcs2
          simpa using hcs2
    · intro hcn
      rw [hstop_all c] at hcn
      rw [hstop_all i]
      exact hcs3 hcn
  · intro i hi
    rw [hlen2] at hi
    rw [hchildren_all i]
    exact chain'_transfer _ _ _
      (fun a _ b _ h => by
        obtain ⟨e1, h1, h2⟩ := h
        exact ⟨e1, by rw [hstop_all a]; exact h1,
          by rw [hstart_all b]; exact h2⟩)
      (w.child_chain i hi)
  · intro i hi e he
    rw [hlen2] at hi
    rw [hstop_all i] at he
    have hik : i ≠ k := by
      intro h
      rw [h, hkstop] at he
      cases he
    have hold := w.closed_triv i hi e he
    have heL : e ≤ t.buffer.length := by
      have h2 := (w.span i hi).2
      have heB : endB t (exAt t i) = (exAt t i).stop.getD t.buffer.length := rfl
      rw [heB, he] at h2
      simpa using h2
    rw [hex_ne i hik, hb2]
    constructor
    · intro htr b hb hsb hbe
      rcases List.mem_append.1 hb with hbo | hbB
      · exact hold.1 htr b hbo hsb hbe
      · have hbB' : b = B := List.mem_singleton.1 hbB
        subst hbB'
        rw [hBe] at hbe
        cases hBt : b.trivial with
        | true => rfl
        | false =>
          have := hnt hBt
          omega
    · intro hall
      apply hold.2
      intro b hb hsb hbe
      exact hall b (List.mem_append.2 (Or.inl hb)) hsb hbe
  · rw [hbuf2]
    have hstk3 : t2.example_stack = k :: rest := hst
    rw [hstk3]
    refine ⟨?_, ?_⟩
    · rw [hex_k]
      show B.trivial = true ↔ ∀ b ∈ t2.blocks,
        (exAt t k).start ≤ b.start → b.stop ≤ t.buffer.length + buf.length →
          b.trivial = true
      rw [hkstart, hb2]
      constructor
      · intro hBt b hb h1 h2
        rcases List.mem_append.1 hb with hbo | hbB
        · exact block_trivial_of_ge t w b hbo
            (by have := hstop_le b hbo; omega)
        · rw [List.mem_singleton.1 hbB]
          exact hBt
      · intro hall
        exact hall B (List.mem_append.2 (Or.inr (List.mem_singleton.2 rfl)))
          hBs.ge hBe.le
    · show stack_triv t2 (exAt t2 k).start rest
      rw [hstart_all k, hkstart]
      have htail : stack_triv t t.buffer.length rest := by
        have h := w.open_triv
        rw [hst] at h
        have h2 := h.2
        rw [hkstart] at h2
        exact h2
      have hchaint : stack_chain t rest := by
        have hc := w.chain
        rw [hst] at hc
        exact stack_chain_tail t rest k hc
      have hlt : ∀ j ∈ rest, j < k := by
        have hc := w.chain
        rw [hst] at hc
        exact stack_chain_lt t rest k hc
      refine stack_triv_append t t2 B hb2 rest t.buffer.length htail hchaint
        ?_ ?_ ?_
      · intro j hj
        have hjk : j ≠ k := Nat.ne_of_lt (hlt j hj)
        rw [hex_ne j hjk]
        exact ⟨rfl, rfl⟩
      · intro j hj
        have hc := w.chain
        rw [hst] at hc
        have := stack_chain_start_le t rest k hc j hj
        rw [hkstart] at this
        exact this
      · by_cases hb0 : buf.length = 0
        · left
          cases hBt : B.trivial with
          | true => rfl
          | false =>
            have := hnt hBt
            omega
        · right
          rw [hBe]
          omega
  · intro b hb htr
    rw [hb2] at hb
    rcases List.mem_append.1 hb with hbo | hbB
    · exact w.nt_len b hbo htr
    · rw [List.mem_singleton.1 hbB] at htr ⊢
      rw [hBs, hBe]
      have := hnt htr
      omega
  · intro j hj b hb
    have hj' : j ∈ t.example_stack := hj
    rw [hb2] at hb
    rcases List.mem_append.1 hb with hbo | hbB
    · rw [hstart_all j]
      exact w.no_cross j hj' b hbo
    · right
      rw [List.mem_singleton.1 hbB, hstart_all j, hBs]
      have hjl : j < t.examples.length := w.stack_lt j hj'
      have hop : (exAt t j).stop = none := (w.open_iff j hjl).2 hj'
      have h1 := (w.span j hjl).1
      have heB : endB t (exAt t j) = (exAt t j).stop.getD t.buffer.length := rfl
      rw [heB, hop] at h1
      simpa using h1
  · rw [hb2, hbuf2, ← hBe]
    exact partitions_append 0 t.blocks t.buffer.length B w.part hBs
      (by rw [hBe]; exact Nat.le_add_right _ _)
  · intro h
    have h' : t.frozen = true := h
    rw [hfz] at h'
    cases h'

theorem WF_draw_bits_record (s : ConjectureData) (n nb : Nat)
    (buf0 : List Nat) (isF : Bool) (w : WF s) (hfz : s.frozen = false)
    (hlen : buf0.length = nb) :
    WF (draw_bits_record s n nb buf0 isF).1 := by
  have w1 : WF (start_example s DRAW_BYTES_LABEL).1 := WF_start_example s _ w
  set s1 := (start_example s DRAW_BYTES_LABEL).1 with hs1
  have hfz1 : s1.frozen = false := by
    rw [hs1, start_example, if_neg (by simp [hfz])]
    exact hfz
  have hst1 : s1.example_stack = s.examples.length :: s.example_stack := by
    rw [hs1, start_example, if_neg (by simp [hfz])]
  set Bdef : Block :=
    ({ start := s1.index, stop := s1.index + nb, bits := n,
       index := s1.blocks.length, forced := isF,
       all_zero := decide (int_from_bytes (maskBuf n buf0) = 0) }) with hBdef
  have hkstart : (exAt s1 s.examples.length).start = s1.buffer.length := by
    rw [hs1]
    cases hstk : s.example_stack with
    | nil =>
      rw [start_example, if_neg (by simp [hfz]), hstk]
      show ((s.examples ++ [_]).getD s.examples.length default).start = _
      rw [getD_append_self]
      rfl
    | cons p rst =>
      have hpl : p < s.examples.length :=
        w.stack_lt p (by rw [hstk]; exact List.mem_cons_self _ _)
      rw [start_example, if_neg (by simp [hfz]), hstk]
      show (((s.examples ++ [_]).set p _).getD s.examples.length
        default).start = _
      rw [getD_set_ne (Nat.ne_of_lt hpl), getD_append_self]
      rfl
  have hBs : Bdef.start = s1.buffer.length := rfl
  have hBe : Bdef.stop = s1.buffer.length + (maskBuf n buf0).length := by
    show s1.buffer.length + nb = s1.buffer.length + (maskBuf n buf0).length
    rw [mask_length, hlen]
  have hBi : Bdef.index = s1.blocks.length := rfl
  have hnt : Bdef.trivial = false → 0 < (maskBuf n buf0).length := by
    intro h
    by_contra h0
    have hnil : maskBuf n buf0 = [] :=
      List.eq_nil_of_length_eq_zero (by omega)
    have hb : Bdef.trivial =
        (isF || decide (int_from_bytes (maskBuf n buf0) = 0)) := rfl
    rw [hb, hnil] at h
    simp [int_from_bytes_nil] at h
  have hmain := WF_record_mut s1 w1 s.examples.length s.example_stack
    (maskBuf n buf0) Bdef nb hfz1 hst1 hkstart hBs hBe hBi hnt
  have hfinal := WF_stop_example _ false hmain
  have heq : (draw_bits_record s n nb buf0 isF).1 =
      (stop_example { s1 with
        examples := s1.examples.set s.examples.length
          ({ exAt s1 s.examples.length with
            trivial := Bdef.trivial } : Example),
        blocks := s1.blocks ++ [Bdef],
        block_starts := fun m =>
          if m = nb then s1.block_starts m ++ [Bdef.start]
          else s1.block_starts m,
        buffer := s1.buffer ++ maskBuf n buf0 } false).1 := by
    rw [draw_bits_record]
    dsimp only
    split <;> rfl
  rw [heq]
  exact hfinal

theorem WF_diag (s : ConjectureData) (w : WF s) (ov : Nat) (st : Status) :
    WF { s with overdraw := ov, status := st } := by
  refine
    { idx_ex := w.idx_ex, idx_blk := w.idx_blk, open_iff := w.open_iff,
      stack_lt := w.stack_lt, chain := ?_, span := w.span,
      child_mem := w.child_mem, child_span := w.child_span,
      child_chain := w.child_chain, closed_triv := w.closed_triv,
      open_triv := ?_, nt_len := w.nt_len, no_cross := w.no_cross,
      part := w.part, frozen_stack := w.frozen_stack }
  · exact stack_chain_of s ({ s with overdraw := ov, status := st })
      s.example_stack w.chain (fun j _ => rfl) (fun j _ => rfl)
  · exact stack_triv_of s ({ s with overdraw := ov, status := st }) rfl
      s.example_stack s.buffer.length w.open_triv (fun j _ => ⟨rfl, rfl⟩)

theorem WF_draw_bits (src : ByteSource) (s : ConjectureData) (n : Nat)
    (forced : Option Nat) (w : WF s) : WF (draw_bits src s n forced).1 := by
  rw [draw_bits]
  by_cases hfz : s.frozen = true
  · rw [if_pos hfz]
    exact w
  · rw [if_neg hfz]
    have hfz' : s.frozen = false := by
      cases h : s.frozen
      · rfl
      · exact absurd h hfz
    dsimp only
    by_cases hcap : s.index + bits_to_bytes n > s.max_length
    · rw [if_pos hcap]
      exact WF_freeze _ (WF_diag s w _ _)
    · rw [if_neg hcap]
      cases forced with
      | some v =>
        dsimp only
        by_cases hof : v < 256 ^ bits_to_bytes n
        · rw [if_pos hof]
          exact WF_draw_bits_record s n _ _ true w hfz'
            (length_int_to_bytes v _)
        · rw [if_neg hof]
          exact w
      | none =>
        dsimp only
        by_cases hsl : (src s (bits_to_bytes n)).length = bits_to_bytes n
        · rw [if_pos hsl]
          exact WF_draw_bits_record s n _ _ false w hfz' hsl
        · rw [if_neg hsl]
          exact w

theorem WF_write (src : ByteSource) (s : ConjectureData) (bs : List Nat)
    (w : WF s) : WF (write src s bs).1 := by
  rw [write]
  by_cases hfz : s.frozen = true
  · rw [if_pos hfz]
    exact w
  · rw [if_neg hfz]
    by_cases hnil : bs = []
    · rw [if_pos hnil]
      exact w
    · rw [if_neg hnil]
      have h := WF_draw_bits src s (bs.length * 8) (some (int_from_bytes bs)) w
      cases hd : draw_bits src s (bs.length * 8) (some (int_from_bytes bs)) with
      | mk s' r =>
        rw [hd] at h
        cases r with
        | ok v => exact h
        | error e => exact h

theorem WF_diag2 (s : ConjectureData) (w : WF s) (orig : Option Nat)
    (st : Status) : WF { s with interesting_origin := orig, status := st } := by
  refine
    { idx_ex := w.idx_ex, idx_blk := w.idx_blk, open_iff := w.open_iff,
      stack_lt := w.stack_lt, chain := ?_, span := w.span,
      child_mem := w.child_mem, child_span := w.child_span,
      child_chain := w.child_chain, closed_triv := w.closed_triv,
      open_triv := ?_, nt_len := w.nt_len, no_cross := w.no_cross,
      part := w.part, frozen_stack := w.frozen_stack }
  · exact stack_chain_of s ({ s with interesting_origin := orig, status := st })
      s.example_stack w.chain (fun j _ => rfl) (fun j _ => rfl)
  · exact stack_triv_of s ({ s with interesting_origin := orig, status := st })
      rfl s.example_stack s.buffer.length w.open_triv (fun j _ => ⟨rfl, rfl⟩)

theorem WF_conclude (s : ConjectureData) (st : Status) (origin : Option Nat)
    (w : WF s) : WF (conclude_test s st origin).1 := by
  rw [conclude_test]
  by_cases h1 : origin.isSome ∧ st ≠ .interesting
  · rw [if_pos h1]
    exact w
  · rw [if_neg h1]
    by_cases hfz : s.frozen = true
    · rw [if_pos hfz]
      exact w
    · rw [if_neg hfz]
      exact WF_freeze _ (WF_diag2 s w origin st)

/-- Every state reachable by driving a record through its public mutating
operations satisfies the well-formedness invariant. -/
theorem Reachable_WF (src : ByteSource) (s : ConjectureData)
    (h : Reachable src s) : WF s := by
  induction h with
  | init maxLen tc => exact WF_initial maxLen tc
  | draw_bits_step n forced _ ih => exact WF_draw_bits src _ n forced ih
  | start_example_step label _ ih => exact WF_start_example _ label ih
  | stop_example_step d _ ih => exact WF_stop_example _ d ih
  | write_step bs _ ih => exact WF_write src _ bs ih
  | freeze_step _ ih => exact WF_freeze _ ih
  | conclude_step st origin _ ih => exact WF_conclude _ st origin ih

theorem start_example_frame (s : ConjectureData) (label : Nat) :
    (start_example s label).1.buffer = s.buffer ∧
    (start_example s label).1.blocks = s.blocks := by
  rw [start_example]
  by_cases hfz : s.frozen = true
  · rw [if_pos hfz]
    exact ⟨rfl, rfl⟩
  · rw [if_neg hfz]
    exact ⟨rfl, rfl⟩

/-- Every byte of the big-endian encoding is below 256. -/
theorem int_to_bytes_byte_lt (v : Nat) : ∀ k, ∀ x ∈ int_to_bytes v k,
    x < 256 := by
  intro k
  induction k with
  | zero => intro x hx; cases hx
  | succ k ih =>
    intro x hx
    rw [int_to_bytes] at hx
    rcases List.mem_cons.1 hx with hx0 | hx'
    · rw [hx0]
      exact Nat.mod_lt _ (by norm_num)
    · exact ih x hx'

theorem take_append_le {α : Type} : ∀ (l1 l2 : List α) (m : Nat),
    m ≤ l1.length → (l1 ++ l2).take m = l1.take m := by
  intro l1
  induction l1 with
  | nil =>
    intro l2 m h
    have h0 : m = 0 := by simpa using h
    subst h0
    simp
  | cons a t ih =>
    intro l2 m h
    cases m with
    | zero => simp
    | succ m' =>
      rw [List.cons_append, List.take_succ_cons, List.take_succ_cons,
        ih l2 m' (by simpa using h)]

/-- The decoded-value invariant behind the `blocks_with_values` assert: every
block's slice of the buffer decodes below `2 ^ bits`. -/
def SliceInv (s : ConjectureData) : Prop :=
  ∀ b ∈ s.blocks,
    int_from_bytes ((s.buffer.take b.stop).drop b.start) < 2 ^ b.bits

theorem SliceInv_frame (s s' : ConjectureData) (hB : s'.blocks = s.blocks)
    (hBuf : s'.buffer = s.buffer) (h : SliceInv s) : SliceInv s' := by
  intro b hb
  rw [hB] at hb
  rw [hBuf]
  exact h b hb

theorem SliceInv_record (s : ConjectureData) (n : Nat) (buf0 : List Nat)
    (isF : Bool) (w : WF s) (h : SliceInv s) (hfz : s.frozen = false)
    (hlen : buf0.length = bits_to_bytes n) (hb : ∀ x ∈ buf0, x < 256) :
    SliceInv (draw_bits_record s n (bits_to_bytes n) buf0 isF).1 := by
  have heq := draw_bits_record_eq s n buf0 isF hfz hlen w.stack_lt
  rw [heq]
  intro b hbm
  have hbm' : b ∈ s.blocks ++
      [drawnBlock s n (int_from_bytes (maskBuf n buf0)) isF] := hbm
  have hml : (maskBuf n buf0).length = bits_to_bytes n := by
    rw [mask_length, hlen]
  rcases List.mem_append.1 hbm' with hbo | hbB
  · have hle : b.stop ≤ s.buffer.length :=
      ((partitions_mem 0 s.blocks s.buffer.length w.part).2 b hbo).2.2
    show int_from_bytes
      (((s.buffer ++ maskBuf n buf0).take b.stop).drop b.start) < 2 ^ b.bits
    rw [take_append_le _ _ _ hle]
    exact h b hbo
  · rw [List.mem_singleton.1 hbB]
    show int_from_bytes
      (((s.buffer ++ maskBuf n buf0).take
        (s.buffer.length + bits_to_bytes n)).drop s.buffer.length) < 2 ^ n
    rw [show s.buffer.length + bits_to_bytes n =
      (s.buffer ++ maskBuf n buf0).length by simp [hml]]
    rw [List.take_length, List.drop_left]
    exact mask_value_lt n buf0 hlen hb

theorem SliceInv_draw_bits (src : ByteSource)
    (hsrc : ∀ s' m, ∀ x ∈ src s' m, x < 256)
    (s : ConjectureData) (n : Nat) (forced : Option Nat)
    (w : WF s) (h : SliceInv s) :
    SliceInv (draw_bits src s n forced).1 := by
  rw [draw_bits]
  by_cases hfz : s.frozen = true
  · rw [if_pos hfz]
    exact h
  · rw [if_neg hfz]
    have hfz' : s.frozen = false := by
      cases h2 : s.frozen
      · rfl
      · exact absurd h2 hfz
    dsimp only
    by_cases hcap : s.index + bits_to_bytes n > s.max_length
    · rw [if_pos hcap]
      exact SliceInv_frame s _ ((freeze_frame _).2.1.trans rfl)
        ((freeze_frame _).1.trans rfl) h
    · rw [if_neg hcap]
      cases forced with
      | some v =>
        dsimp only
        by_cases hof : v < 256 ^ bits_to_bytes n
        · rw [if_pos hof]
          exact SliceInv_record s n _ true w h hfz'
            (length_int_to_bytes v _) (int_to_bytes_byte_lt v _)
        · rw [if_neg hof]
          exact h
      | none =>
        dsimp only
        by_cases hsl : (src s (bits_to_bytes n)).length = bits_to_bytes n
        · rw [if_pos hsl]
          exact SliceInv_record s n _ false w h hfz' hsl
            (hsrc s (bits_to_bytes n))
        · rw [if_neg hsl]
          exact h

theorem SliceInv_write (src : ByteSource)
    (hsrc : ∀ s' m, ∀ x ∈ src s' m, x < 256)
    (s : ConjectureData) (bs : List Nat) (w : WF s) (h : SliceInv s) :
    SliceInv (write src s bs).1 := by
  rw [write]
  by_cases hfz : s.frozen = true
  · rw [if_pos hfz]
    exact h
  · rw [if_neg hfz]
    by_cases hnil : bs = []
    · rw [if_pos hnil]
      exact h
    · rw [if_neg hnil]
      have h2 := SliceInv_draw_bits src hsrc s (bs.length * 8)
        (some (int_from_bytes bs)) w h
      cases hd : draw_bits src s (bs.length * 8) (some (int_from_bytes bs)) with
      | mk s' r =>
        rw [hd] at h2
        cases r with
        | ok v => exact h2
        | error e => exact h2

theorem SliceInv_conclude (s : ConjectureData) (st : Status)
    (origin : Option Nat) (h : SliceInv s) :
    SliceInv (conclude_test s st origin).1 := by
  rw [conclude_test]
  by_cases h1 : origin.isSome ∧ st ≠ .interesting
  · rw [if_pos h1]
    exact h
  · rw [if_neg h1]
    by_cases hfz : s.frozen = true
    · rw [if_pos hfz]
      exact h
    · rw [if_neg hfz]
      exact SliceInv_frame s _ ((freeze_frame _).2.1.trans rfl)
        ((freeze_frame _).1.trans rfl) h

/-- Over a byte source that yields genuine bytes (below 256), every reachable
state satisfies the decoded-value invariant. -/
theorem Reachable_slice (src : ByteSource)
    (hsrc : ∀ s' m, ∀ x ∈ src s' m, x < 256) (s : ConjectureData)
    (h : Reachable src s) : SliceInv s := by
  induction h with
  | init maxLen tc =>
    intro b hb
    have h0 : (initial_state maxLen tc).blocks = [] := rfl
    rw [h0] at hb
    cases hb
  | draw_bits_step n forced hr ih =>
    exact SliceInv_draw_bits src hsrc _ n forced (Reachable_WF src _ hr) ih
  | start_example_step label hr ih =>
    exact SliceInv_frame _ _ (start_example_frame _ _).2
      (start_example_frame _ _).1 ih
  | stop_example_step d hr ih =>
    exact SliceInv_frame _ _ (stop_example_frame _ _).2.1
      (stop_example_frame _ _).1 ih
  | write_step bs hr ih =>
    exact SliceInv_write src hsrc _ bs (Reachable_WF src _ hr) ih
  | freeze_step hr ih =>
    exact SliceInv_frame _ _ (freeze_frame _).2.1 (freeze_frame _).1 ih
  | conclude_step st origin hr ih =>
    exact SliceInv_conclude _ st origin ih

/-! ## Claims C5-C8 -/

/-- C5: on a frozen record every example is closed, and its `trivial` flag is
true iff every block recorded within its `[start, end)` span is trivial
(forced or all-zero); in particular one non-trivial block within the span
forces the flag of every enclosing example to false by the time it closed. -/
theorem claim_C5 (src : ByteSource) (s : ConjectureData)
    (h : Reachable src s) (hfz : s.frozen = true)
    (i : Nat) (hi : i < s.examples.length) :
    ∃ e, (exAt s i).stop = some e ∧
      ((exAt s i).trivial = true ↔
        ∀ b ∈ s.blocks, (exAt s i).start ≤ b.start → b.stop ≤ e →
          b.trivial = true) ∧
      (∀ b ∈ s.blocks, b.trivial = false → (exAt s i).start ≤ b.start →
        b.stop ≤ e → (exAt s i).trivial = false) := by
  have w := Reachable_WF src s h
  have hstk := w.frozen_stack hfz
  have hnm : i ∉ s.example_stack := by
    rw [hstk]
    exact List.not_mem_nil i
  cases hs : (exAt s i).stop with
  | none => exact absurd ((w.open_iff i hi).1 hs) hnm
  | some e =>
    refine ⟨e, rfl, w.closed_triv i hi e hs, ?_⟩
    intro b hb hbt hs1 hs2
    cases htr : (exAt s i).trivial with
    | false => rfl
    | true =>
      have := (w.closed_triv i hi e hs).1 htr b hb hs1 hs2
      rw [this] at hbt
      cases hbt

theorem claim_C5_witness :
    ((freeze (initial_state 3 0)).frozen = true ∧
      0 < (freeze (initial_state 3 0)).examples.length) ∧
    ∃ e, (exAt (freeze (initial_state 3 0)) 0).stop = some e ∧
      ((exAt (freeze (initial_state 3 0)) 0).trivial = true ↔
        ∀ b ∈ (freeze (initial_state 3 0)).blocks,
          (exAt (freeze (initial_state 3 0)) 0).start ≤ b.start →
          b.stop ≤ e → b.trivial = true) ∧
      (∀ b ∈ (freeze (initial_state 3 0)).blocks, b.trivial = false →
        (exAt (freeze (initial_state 3 0)) 0).start ≤ b.start →
        b.stop ≤ e →
        (exAt (freeze (initial_state 3 0)) 0).trivial = false) :=
  ⟨⟨rfl, by decide⟩,
    claim_C5 (fun _ _ => []) (freeze (initial_state 3 0))
      (Reachable.freeze_step (Reachable.init 3 0)) rfl 0 (by decide)⟩

theorem partitions_chain_stop : ∀ (off : Nat) (bs : List Block) (len : Nat),
    partitions off bs len →
    List.Chain' (fun b1 b2 : Block => b1.stop = b2.start) bs := by
  intro off bs
  induction bs generalizing off with
  | nil => intro len _; exact List.chain'_nil
  | cons b t ih =>
    intro len hp
    obtain ⟨hs, hle, hrest⟩ := hp
    cases t with
    | nil => exact List.chain'_singleton _
    | cons c t2 =>
      refine List.chain'_cons.2 ⟨?_, ih b.stop len hrest⟩
      exact hrest.1.symm

/-- C6 (amended): at every reachable state the blocks, in index order, tile
exactly the consumed prefix of the buffer: each block starts where its
predecessor stopped, the first starts at 0, the last stops at the buffer
length, and block starts are non-decreasing (zero-length blocks from 0-bit
draws share their start with the following block, so starts are not
strictly increasing). -/
theorem claim_C6 (src : ByteSource) (s : ConjectureData)
    (h : Reachable src s) :
    partitions 0 s.blocks s.buffer.length ∧
    List.Chain' (fun b1 b2 : Block => b1.stop = b2.start) s.blocks ∧
    List.Chain' (fun b1 b2 : Block => b1.start ≤ b2.start) s.blocks := by
  have w := Reachable_WF src s h
  refine ⟨w.part, partitions_chain_stop 0 s.blocks s.buffer.length w.part,
    ?_⟩
  refine chain'_transfer _ _ _ ?_
    (partitions_chain_stop 0 s.blocks s.buffer.length w.part)
  intro a ha b hb hab
  have := ((partitions_mem 0 s.blocks s.buffer.length w.part).2 a ha).2.1
  omega

/-- C6 counterexample: after two `draw_bits(0)` calls the record holds two
blocks whose starts are both 0, so block starts are not strictly
increasing. -/
theorem claim_C6_counterexample :
    Reachable (fun _ _ => [])
      (draw_bits (fun _ _ => [])
        (draw_bits (fun _ _ => []) (initial_state 5 0) 0 none).1 0 none).1 ∧
    (draw_bits (fun _ _ => [])
      (draw_bits (fun _ _ => []) (initial_state 5 0) 0 none).1
      0 none).1.blocks.length = 2 ∧
    ((draw_bits (fun _ _ => [])
      (draw_bits (fun _ _ => []) (initial_state 5 0) 0 none).1
      0 none).1.blocks.getD 0 default).start = 0 ∧
    ((draw_bits (fun _ _ => [])
      (draw_bits (fun _ _ => []) (initial_state 5 0) 0 none).1
      0 none).1.blocks.getD 1 default).start = 0 :=
  ⟨Reachable.draw_bits_step 0 none
    (Reachable.draw_bits_step 0 none (Reachable.init 5 0)),
   rfl, rfl, rfl⟩

theorem claim_C6_witness :
    partitions 0 (initial_state 4 0).blocks (initial_state 4 0).buffer.length ∧
    List.Chain' (fun b1 b2 : Block => b1.stop = b2.start)
      (initial_state 4 0).blocks ∧
    List.Chain' (fun b1 b2 : Block => b1.start ≤ b2.start)
      (initial_state 4 0).blocks :=
  claim_C6 (fun _ _ => []) (initial_state 4 0) (Reachable.init 4 0)

/-- C7: on a frozen record, every example's list index is its `index`, every
child's span is contained in its parent's span, and children's starts and
ends are non-decreasing in creation order; and on an unfrozen record each
`start_example` appends the new example's index to the children of the
example open at that time (the stack top). -/
theorem claim_C7 (src : ByteSource) (s : ConjectureData)
    (h : Reachable src s) :
    (s.frozen = true → ∀ i, i < s.examples.length →
      (exAt s i).index = i ∧
      (∀ c ∈ (exAt s i).children, i < c ∧ c < s.examples.length ∧
        (exAt s i).start ≤ (exAt s c).start ∧
        endB s (exAt s c) ≤ endB s (exAt s i)) ∧
      List.Chain' (fun c1 c2 =>
        (exAt s c1).start ≤ (exAt s c2).start ∧
        endB s (exAt s c1) ≤ endB s (exAt s c2)) (exAt s i).children) ∧
    (s.frozen = false → ∀ p rest, s.example_stack = p :: rest → ∀ label,
      (exAt (start_example s label).1 p).children =
        (exAt s p).children ++ [s.examples.length]) := by
  have w := Reachable_WF src s h
  constructor
  · intro _ i hi
    refine ⟨w.idx_ex i hi, ?_, ?_⟩
    · intro c hc
      obtain ⟨hic, hcl⟩ := w.child_mem i hi c hc
      obtain ⟨h1, h2, _⟩ := w.child_span i hi c hc
      exact ⟨hic, hcl, h1, h2⟩
    · refine chain'_transfer _ _ _ ?_ (w.child_chain i hi)
      intro a ha b hb hab
      obtain ⟨e1, hstop, hle⟩ := hab
      have hal : a < s.examples.length := (w.child_mem i hi a ha).2
      have hbl : b < s.examples.length := (w.child_mem i hi b hb).2
      have hsa := (w.span a hal).1
      have hsb := (w.span b hbl).1
      have hea : endB s (exAt s a) = e1 := by
        show (exAt s a).stop.getD s.buffer.length = e1
        rw [hstop]
        rfl
      have hsb2 : (exAt s b).start ≤ endB s (exAt s b) := hsb
      rw [hea] at hsa
      exact ⟨by omega, by rw [hea]; omega⟩
  · intro hfz p rest hst label
    have hpl : p < s.examples.length :=
      w.stack_lt p (by rw [hst]; exact List.mem_cons_self _ _)
    rw [start_example, if_neg (by simp [hfz]), hst]
    dsimp only
    show (((s.examples ++ [_]).set p _).getD p default).children = _
    rw [getD_set_self
      (by rw [List.length_append, List.length_singleton]; omega)]
    show ((s.examples ++ [_]).getD p default).children ++
      [s.examples.length] = _
    rw [List.getD_append _ _ _ _ hpl]
    rfl

theorem claim_C7_witness :
    ((exAt (freeze (initial_state 3 0)) 0).index = 0) ∧
    ((exAt (start_example (initial_state 3 0) 7).1 0).children =
      (exAt (initial_state 3 0) 0).children ++ [1]) := by
  have h1 := claim_C7 (fun _ _ => []) (freeze (initial_state 3 0))
    (Reachable.freeze_step (Reachable.init 3 0))
  have h2 := claim_C7 (fun _ _ => []) (initial_state 3 0)
    (Reachable.init 3 0)
  exact ⟨(h1.1 rfl 0 (by decide)).1, h2.2 rfl 0 [] rfl 7⟩

/-- C8: the value of every successful `draw_bits(n, ...)` call fits in `n`
bits, and every `(block, value)` pair of `blocks_with_values` on a frozen
record (driven by a source of genuine bytes) satisfies
`bit_length value ≤ block.bits`. -/
theorem claim_C8 (src : ByteSource)
    (hsrc : ∀ s' m, ∀ x ∈ src s' m, x < 256)
    (s : ConjectureData) (h : Reachable src s) :
    (∀ n forced S v, draw_bits src s n forced = (S, Except.ok v) →
      bit_length v ≤ n) ∧
    (s.frozen = true →
      ∀ p ∈ blocks_with_values s, bit_length p.2 ≤ p.1.bits) := by
  constructor
  · intro n forced S v hd
    exact (draw_bits_ok_inv src s n forced S v hd).2.2
  · intro _ p hp
    have hs := Reachable_slice src hsrc s h
    rw [blocks_with_values] at hp
    obtain ⟨b, hb, hbe⟩ := List.mem_map.1 hp
    rw [← hbe]
    show bit_length
      (int_from_bytes ((s.buffer.take b.stop).drop b.start)) ≤ b.bits
    rw [bit_length_le_iff]
    exact hs b hb

theorem claim_C8_witness :
    (∀ (s' : ConjectureData) (m : Nat),
      ∀ x ∈ (fun (_ : ConjectureData) (_ : Nat) => [200]) s' m, x < 256) ∧
    (freeze (draw_bits (fun _ _ => [200])
      (initial_state 2 0) 8 none).1).frozen = true ∧
    ∀ p ∈ blocks_with_values
        (freeze (draw_bits (fun _ _ => [200]) (initial_state 2 0) 8 none).1),
      bit_length p.2 ≤ p.1.bits := by
  have hsrc : ∀ (s' : ConjectureData) (m : Nat),
      ∀ x ∈ (fun (_ : ConjectureData) (_ : Nat) => [200]) s' m, x < 256 := by
    intro s' m x hx
    simp at hx
    omega
  have h := claim_C8 (fun _ _ => [200]) hsrc _
    (Reachable.freeze_step
      (Reachable.draw_bits_step 8 none (Reachable.init 2 0)))
  exact ⟨hsrc, rfl, h.2 rfl⟩

end Conjecture
